import Mathlib

/-!
# MemCached: cache engine and text protocol

A shallow embedding of `src/cache.c` and `src/text_protocol.c`.

Conventions of the embedding.

* A C `char` is modelled by its integer value (`Int`); a buffer given as a pointer and a
  length (`char *key, unsigned klen`) is modelled by the list of its bytes, the length
  being the length of the list.
* Heap objects (chain nodes, LRU handles) carry the address they were allocated at as a
  natural number; `0` is `NULL`. `malloc` is modelled by a bump allocator whose next free
  address is kept beside the cache (`Cache.heap_next`).
* Locks are not modelled: every operation is embedded as one atomic, sequential step.
* Allocations are taken to succeed (the sources abort on a failed one).
-/

set_option autoImplicit false

namespace MemCached

/-! ## Codes -/

/-- Modelled from the spec: `enum code` is declared in a header outside `cache.c` and
`text_protocol.c`. The constructors are the enumerators named by `cache.c` and
`text_protocol.c`. -/
inductive code where
  | PUT | DEL | GET | STATS | OK | EINVALID | ENOTFOUND | EUNK
  deriving DecidableEq

/-! ## Hashing -/

/-- One round of the loop of `hash_bytes`: `hashval = *bytes + 31 * hashval`, computed in
`unsigned long` (64 bits). `c` is the value of the `char` read. -/
def hash_step (hashval : Nat) (c : Int) : Nat :=
  ((c + 31 * (hashval : Int)) % (2 ^ 64 : Int)).toNat

/-- The function `hash_bytes` of `cache.c`. -/
def hash_bytes (bytes : List Int) : Nat :=
  bytes.foldl hash_step 0

/-! ## Bucket store (collision chains) -/

/-- Modelled from the spec: `Data` is declared in `ll.h`, outside `cache.c` and
`text_protocol.c`. An entry holds its key, its value and its mode (§3, *Entry*); `klen` and `vlen`
are the lengths of the two lists. -/
structure Data where
  key : List Int
  val : List Int
  mode : Int
  deriving DecidableEq

/-- Modelled from the spec: `data_wrap` of `ll.h` builds an entry from its parts. -/
def data_wrap (key value : List Int) (mode : Int) : Data :=
  { key := key, val := value, mode := mode }

/-- Modelled from the spec: a chain node (`List` in `ll.h`) wraps an entry and is bound to
its LRU handle. `addr` is the address of the node. -/
structure ListNode where
  addr : Nat
  data : Data
  lru_priority : Nat
  deriving DecidableEq

/-- The test applied by the chain searches: same mode and byte-for-byte equal key
(§4.2). -/
def node_matches (mode : Int) (key : List Int) (n : ListNode) : Bool :=
  n.data.mode == mode && n.data.key == key

/-- Modelled from the spec: `list_init` of `ll.h`, the empty chain. -/
def list_init : List ListNode := []

/-- Modelled from the spec: `list_search` of `ll.h` returns the first node of the chain
matching `(mode, key)`, if any (§4.2: first structural match wins). -/
def list_search (l : List ListNode) (mode : Int) (key : List Int) : Option ListNode :=
  l.find? (node_matches mode key)

/-- Modelled from the spec: `list_insert` of `ll.h` allocates a node for the entry at
address `addr` and appends it to the chain (§4.1 *put*, §4.2: chain order is insertion
order). The node is not bound to an LRU handle yet. -/
def list_insert (l : List ListNode) (addr : Nat) (d : Data) : List ListNode × ListNode :=
  let new_node : ListNode := { addr := addr, data := d, lru_priority := 0 }
  (l ++ [new_node], new_node)

/-- Modelled from the spec: `list_get_data` of `ll.h`. -/
def list_get_data (n : ListNode) : Data := n.data

/-- Modelled from the spec: `list_get_lru_priority` of `ll.h`. -/
def list_get_lru_priority (n : ListNode) : Nat := n.lru_priority

/-- Modelled from the spec: `list_set_data` of `ll.h` overwrites, in place, the entry of
the node at address `addr`. -/
def list_set_data (l : List ListNode) (addr : Nat) (d : Data) : List ListNode :=
  l.map fun n => if n.addr = addr then { n with data := d } else n

/-- Modelled from the spec: `list_set_lru_priority` of `ll.h` binds the node at address
`addr` to the LRU handle `p`. -/
def list_set_lru_priority (l : List ListNode) (addr : Nat) (p : Nat) : List ListNode :=
  l.map fun n => if n.addr = addr then { n with lru_priority := p } else n

/-- Modelled from the spec: `list_search_and_remove` of `ll.h` unlinks the first node
matching `(mode, key)` and returns it, without freeing it (§4.2). -/
def list_search_and_remove (l : List ListNode) (mode : Int) (key : List Int) :
    Option ListNode × List ListNode :=
  (l.find? (node_matches mode key), l.eraseP (node_matches mode key))

/-! ## LRU queue -/

/-- Modelled from the spec: an LRU node (priority handle) records the slot index of its
entry and a back-link to the chain node (§3, *LRU Node*). `addr` is the address of the
handle. -/
structure LRUNode where
  addr : Nat
  idx : Nat
  data_node : Nat
  deriving DecidableEq

/-- Modelled from the spec: `lru_init` of `ll.h`, the empty queue. A queue is the list of
its handles from the most recently used (head) to the least recently used (tail). -/
def lru_init : List LRUNode := []

/-- Modelled from the spec: `lru_push` of `ll.h` allocates a handle at address `addr` and
inserts it at the head of the queue (§4.3). -/
def lru_push (q : List LRUNode) (addr idx data_node : Nat) : List LRUNode × Nat :=
  ({ addr := addr, idx := idx, data_node := data_node } :: q, addr)

/-- Modelled from the spec: `lru_remove` of `ll.h` unlinks the handle at address `h` from
the queue (§4.3). -/
def lru_remove (q : List LRUNode) (h : Nat) : List LRUNode :=
  q.filter fun n => n.addr != h

/-- Modelled from the spec: `reset_lru_status` of `ll.h` promotes the handle at address
`h`: it is unlinked and reinserted at the head (§4.3 *promote*). -/
def reset_lru_status (q : List LRUNode) (h : Nat) : List LRUNode :=
  match q.find? fun n => n.addr == h with
  | some n => n :: lru_remove q h
  | none => q

/-! ## Cache engine -/

/-- The structure `_Cache` of `cache.c`, without its locks and statistics registers (which
`cache_get`, `cache_put` and `cache_del` never read or write), together with the next free
heap address. -/
structure Cache where
  buckets : List (List ListNode)
  queue : List LRUNode
  nregions : Nat
  size : Nat
  heap_next : Nat
  deriving DecidableEq

/-- The macro `NROW` of `cache.c`. -/
def NROW (cache : Cache) (val : List Int) : Nat :=
  hash_bytes val % cache.size

/-- The macro `NREGION` of `cache.c`. -/
def NREGION (cache : Cache) (idx : Nat) : Nat :=
  idx % cache.nregions

/-- The chain `cache->buckets[idx]`. -/
def Cache.bucket (cache : Cache) (idx : Nat) : List ListNode :=
  cache.buckets.getD idx []

/-- The function `cache_get_lru_queue` of `cache.c`. -/
def cache_get_lru_queue (cache : Cache) : List LRUNode := cache.queue

/-- The function `cache_init` of `cache.c`, for `size` and `nregions` below `2 ^ 32` (the
fields are `uint32_t`). Address `0` is `NULL`, so allocation starts at `1`. -/
def cache_init (size nregions : Nat) : Cache :=
  { buckets := List.replicate size list_init
    queue := lru_init
    nregions := nregions % 2 ^ 32
    size := size % 2 ^ 32
    heap_next := 1 }

/-- What `cache_get` hands back: the return code, the copy of the value written through
`val` and `vlen` on a hit, and the cache afterwards. -/
structure GetResult where
  res : code
  val : Option (List Int)
  cache : Cache
  deriving DecidableEq

/-- The length written through `vlen` by `cache_get`. -/
def GetResult.vlen (r : GetResult) : Option Nat := r.val.map List.length

/-- The function `cache_get` of `cache.c`. -/
def cache_get (cache : Cache) (mode : Int) (key : List Int) : GetResult :=
  let idx := NROW cache key
  match list_search (cache.bucket idx) mode key with
  | none => { res := code.ENOTFOUND, val := none, cache := cache }
  | some node =>
    let data := list_get_data node
    let queue := reset_lru_status (cache_get_lru_queue cache) (list_get_lru_priority node)
    { res := code.OK, val := some data.val, cache := { cache with queue := queue } }

/-- The function `cache_put` of `cache.c`. -/
def cache_put (cache : Cache) (mode : Int) (key value : List Int) : code × Cache :=
  let idx := NROW cache key
  match list_search (cache.bucket idx) mode key with
  | none =>
    let new_data := data_wrap key value mode
    let (chain, new_node) := list_insert (cache.bucket idx) cache.heap_next new_data
    let (queue, lru_priority) := lru_push cache.queue (cache.heap_next + 1) idx new_node.addr
    let chain := list_set_lru_priority chain new_node.addr lru_priority
    (code.OK, { cache with
      buckets := cache.buckets.set idx chain
      queue := queue
      heap_next := cache.heap_next + 2 })
  | some node =>
    let data := list_get_data node
    let data := { data with mode := mode, val := value }
    let chain := list_set_data (cache.bucket idx) node.addr data
    let queue := reset_lru_status cache.queue (list_get_lru_priority node)
    (code.OK, { cache with buckets := cache.buckets.set idx chain, queue := queue })

/-- The function `cache_del` of `cache.c`. -/
def cache_del (cache : Cache) (mode : Int) (key : List Int) : code × Cache :=
  let idx := NROW cache key
  let list := cache.bucket idx
  match list_search_and_remove list mode key with
  | (none, _) => (code.ENOTFOUND, cache)
  | (some del_node, chain) =>
    let lru_priority := list_get_lru_priority del_node
    let queue := lru_remove cache.queue lru_priority
    (code.OK, { cache with buckets := cache.buckets.set idx chain, queue := queue })

/-! ## Well-formed caches -/

/-- The pair a chain search compares: mode and key. -/
def ListNode.ident (n : ListNode) : Int × List Int := (n.data.mode, n.data.key)

/-- What the shape of a cache looks at in a chain node: everything but the value. -/
def ListNode.skel (n : ListNode) : Nat × Nat × Int × List Int :=
  (n.addr, n.lru_priority, n.data.mode, n.data.key)

/-- All chain nodes of the table, slot after slot. -/
def Cache.nodes (c : Cache) : List ListNode := c.buckets.flatten

/-- The shape of a cache that the operations maintain: the table has `size > 0` slots,
every entry sits in the slot of its hash, no chain holds two entries of one `(mode, key)`,
chain nodes and LRU handles have pairwise distinct addresses below the next free one, and
chain nodes and LRU handles are bound to each other one to one. -/
structure Cache.WF (c : Cache) : Prop where
  size_pos : 0 < c.size
  buckets_length : c.buckets.length = c.size
  slot : ∀ i, ∀ n ∈ c.bucket i, NROW c n.data.key = i
  uniq : ∀ i, ((c.bucket i).map ListNode.ident).Nodup
  chain_addr : ∀ i, ((c.bucket i).map ListNode.addr).Nodup
  cross_addr : ∀ i j, ∀ n ∈ c.bucket i, ∀ m ∈ c.bucket j, n.addr = m.addr → i = j
  queue_addr : (c.queue.map LRUNode.addr).Nodup
  bound : ∀ i, ∀ n ∈ c.bucket i,
    ({ addr := n.lru_priority, idx := i, data_node := n.addr } : LRUNode) ∈ c.queue
  back : ∀ h ∈ c.queue, ∃ n ∈ c.bucket h.idx, n.addr = h.data_node ∧ n.lru_priority = h.addr
  count : c.queue.length = c.nodes.length
  node_fresh : ∀ i, ∀ n ∈ c.bucket i, n.addr < c.heap_next
  queue_fresh : ∀ h ∈ c.queue, h.addr < c.heap_next

/-- A well-formed cache holding three entries, put in the order `"a"`, `"b"`, `"c"`. -/
def sample_cache : Cache :=
  (cache_put (cache_put (cache_put (cache_init 4 2) 1 [97] [120]).2 1 [98] [121]).2
    1 [99] [122]).2

/-! ## Text protocol -/

/-- Modelled from the spec: `code_str` is defined outside `text_protocol.c`. The string
of a code is its name on the wire (§6: request line `<OP> ...`, result codes `OK`,
`ENOTFOUND`, `EINVALID`, `EUNK`), given here as ASCII bytes. -/
def code_str : code → List Int
  | code.PUT => [80, 85, 84]
  | code.DEL => [68, 69, 76]
  | code.GET => [71, 69, 84]
  | code.STATS => [83, 84, 65, 84, 83]
  | code.OK => [79, 75]
  | code.EINVALID => [69, 73, 78, 86, 65, 76, 73, 68]
  | code.ENOTFOUND => [69, 78, 79, 84, 70, 79, 85, 78, 68]
  | code.EUNK => [69, 85, 78, 75]

/-- The C string stored at the start of `mem`: the bytes before the first NUL. -/
def cstr (mem : List Int) : List Int :=
  mem.takeWhile fun c => c != 0

/-- The delimiters of `text_parser`: `" \t"`. -/
def delim : List Int := [32, 9]

/-- Whether the byte `c` occurs in the delimiter string `d`. -/
def is_delim (d : List Int) (c : Int) : Bool := d.contains c

/-- The function `strtok_r` of the C library on the string `s` that the saved pointer (or
the first argument) points at: leading delimiters are skipped; at the end of the string
the result is `NULL`; otherwise the token runs up to the next delimiter, which is
overwritten by NUL, and the saved pointer moves past it. The result is the token and the
string left at the saved pointer. -/
def strtok_r (d : List Int) (s : List Int) : Option (List Int) × List Int :=
  match s.dropWhile (is_delim d) with
  | [] => (none, [])
  | c :: t =>
    (some ((c :: t).takeWhile fun x => !is_delim d x),
      ((c :: t).dropWhile fun x => !is_delim d x).tail)

/-- The `for` loop of `text_parser`, with `n` rounds left: each round takes one more token
into `toks` and stops at the first `NULL`. The result is the tokens stored, in order, and
the string left at the saved pointer. -/
def text_parser_loop : Nat → List Int → List (List Int) × List Int
  | 0, save_ptr => ([], save_ptr)
  | n + 1, save_ptr =>
    match strtok_r delim save_ptr with
    | (none, save_ptr) => ([], save_ptr)
    | (some tok, save_ptr) =>
      ((tok :: (text_parser_loop n save_ptr).1), (text_parser_loop n save_ptr).2)

/-- What `text_parser` hands back: the code returned, and the entries of `toks` and `lens`
it has written, in order. Entries of the two arrays that the call has not written are not
modelled. -/
structure ParseResult where
  op : code
  toks : List (List Int)
  lens : List Nat
  deriving DecidableEq

/-- The operation token, the argument tokens stored and the result of the `strtok_r` call
that follows the loop of `text_parser`, on the memory `buf`. -/
def text_parser_tokens (TEXT_MAX_TOKS : Nat) (buf : List Int) :
    Option (List Int) × List (List Int) × Option (List Int) :=
  let first := strtok_r delim (cstr buf)
  let rest := text_parser_loop (TEXT_MAX_TOKS - 1) first.2
  (first.1, rest.1, (strtok_r delim rest.2).1)

/-- The function `text_parser` of `text_protocol.c`. `buf` is the memory at the pointer
passed; the constant `TEXT_MAX_TOKS`, defined in a header outside `text_protocol.c`,
is a parameter. -/
def text_parse (TEXT_MAX_TOKS : Nat) (buf : List Int) : ParseResult :=
  let (op_str, toks, more) := text_parser_tokens TEXT_MAX_TOKS buf
  let ntoks := (if op_str.isSome then 1 else 0) + toks.length
  -- `if (strtok_r(NULL, delim, &save_ptr)) op = EINVALID;`: the value is overwritten by
  -- the chain that follows, every branch of which assigns `op`
  let _op : Option code := if more.isSome then some code.EINVALID else none
  let op :=
    if ntoks = 1 ∧ op_str = some (code_str code.STATS) then code.STATS
    else if ntoks = 2 ∧ op_str = some (code_str code.GET) then code.GET
    else if ntoks = 2 ∧ op_str = some (code_str code.DEL) then code.DEL
    else if ntoks = 3 ∧ op_str = some (code_str code.PUT) then code.PUT
    else code.EUNK
  { op := op, toks := toks, lens := toks.map List.length }

/-- The number of arguments each operation of the text protocol takes (§4.4): `STATS` none,
`GET` and `DEL` one, `PUT` two. -/
def arity : code → Nat
  | code.STATS => 0
  | code.GET => 1
  | code.DEL => 1
  | code.PUT => 2
  | _ => 0

/-- The function `answer_text_client` of `text_protocol.c`: the bytes written to the
client. `data` is the memory at the payload pointer (`none` for `NULL`), of which `len`
bytes are written; `len` is a `uint64_t`, below `2 ^ 64`. The sum
`len + strlen(op_string)` of the guard is computed in 64-bit unsigned arithmetic and
wraps around at `2 ^ 64`. `TEXT_LIMIT_SIZE`, defined in a header outside
`text_protocol.c`, is a parameter. -/
def answer_text_client (TEXT_LIMIT_SIZE : Nat) (res : code) (data : Option (List Int))
    (len : Nat) : List Int :=
  let op_string := code_str res
  if (len + op_string.length) % 2 ^ 64 > TEXT_LIMIT_SIZE then
    [69, 66, 73, 71, 10]
  else
    op_string ++ (match data with
      | some d => 32 :: d.take len
      | none => []) ++ [10]

/-- The function `memchr` of the C library over the valid bytes of a buffer: the index of
the first byte equal to `ch`. -/
def memchr : List Int → Int → Option Nat
  | [], _ => none
  | b :: bs, ch => if b = ch then some 0 else (memchr bs ch).map (· + 1)

/-- The structure `ClientData`, of which `text_handler` uses the connection buffer: it is
modelled by its valid bytes `buffer[0 .. current_idx)`. The NUL bytes that `text_handler`
and `strtok_r` write lie in the line that is consumed right after. -/
structure ClientData where
  buffer : List Int
  deriving DecidableEq

/-- The field `current_idx`: the number of valid bytes. -/
def ClientData.current_idx (cdata : ClientData) : Nat := cdata.buffer.length

/-- A request as the router sees it: the operation and the tokens and lengths parsed. -/
abbrev Request := code × List (List Int) × List Nat

/-- The state `text_handler` works on: the global cache (any type `σ`), the connection
data, the bytes written to the client so far and the requests passed to the router so
far. -/
structure HandlerState (σ : Type) where
  cache : σ
  cdata : ClientData
  out : List Int
  reqs : List Request

/-- One round of the `while` loop of `text_handler`, for a line terminator found at index
`ebyte`. The router `make_cache_request` (for `TEXT_MODE`), which is defined outside
`text_protocol.c`, is a parameter: from the cache and a request it gives the cache afterwards, the
result code, the payload (`none` for `NULL`) and its length. On a line longer than
`TEXT_LIMIT_SIZE` the parser is not called, so no entry of `toks` and `lens` is written. -/
def text_handler_step {σ : Type} (TEXT_LIMIT_SIZE TEXT_MAX_TOKS : Nat)
    (make_cache_request : σ → Request → σ × code × Option (List Int) × Nat)
    (st : HandlerState σ) (ebyte : Nat) : HandlerState σ :=
  let req_len := ebyte + 1
  let parsed : ParseResult :=
    if req_len > TEXT_LIMIT_SIZE then
      { op := code.EINVALID, toks := [], lens := [] }
    else
      text_parse TEXT_MAX_TOKS (st.cdata.buffer.set ebyte 0)
  let req : Request := (parsed.op, parsed.toks, parsed.lens)
  let (cache, res, answer, ans_len) := make_cache_request st.cache req
  { cache := cache
    cdata := { buffer := st.cdata.buffer.drop req_len }
    out := st.out ++ answer_text_client TEXT_LIMIT_SIZE res answer ans_len
    reqs := st.reqs ++ [req] }

/-- The `while` loop of `text_handler`, run for at most `fuel` rounds; `none` when the
rounds do not suffice. -/
def text_handler_loop {σ : Type} (TEXT_LIMIT_SIZE TEXT_MAX_TOKS : Nat)
    (make_cache_request : σ → Request → σ × code × Option (List Int) × Nat) :
    Nat → HandlerState σ → Option (HandlerState σ)
  | 0, st =>
    match memchr st.cdata.buffer 10 with
    | none => some st
    | some _ => none
  | fuel + 1, st =>
    match memchr st.cdata.buffer 10 with
    | none => some st
    | some ebyte =>
      text_handler_loop TEXT_LIMIT_SIZE TEXT_MAX_TOKS make_cache_request fuel
        (text_handler_step TEXT_LIMIT_SIZE TEXT_MAX_TOKS make_cache_request st ebyte)

/-- The function `text_handler` of `text_protocol.c`. Every round consumes at least one
byte, so `current_idx` rounds suffice. -/
def text_handler {σ : Type} (TEXT_LIMIT_SIZE TEXT_MAX_TOKS : Nat)
    (make_cache_request : σ → Request → σ × code × Option (List Int) × Nat)
    (st : HandlerState σ) : Option (HandlerState σ) :=
  text_handler_loop TEXT_LIMIT_SIZE TEXT_MAX_TOKS make_cache_request
    st.cdata.current_idx st

/-! ## Closed form of the hash -/

/-- The polynomial `hash_bytes` accumulates, before any wrap-around: the sum over `i` of
`b_i * 31 ^ (n - 1 - i)`, with `b_i` the value of the `i`-th `char` of the `n` read. -/
def hash_poly (bytes : List Int) : Int :=
  ((List.range bytes.length).map fun i => bytes.getD i 0 * 31 ^ (bytes.length - 1 - i)).sum

/-! ## Sequences of calls -/

/-- A call of one of the three operations of the cache engine on entries. -/
inductive CacheOp where
  | get (mode : Int) (key : List Int)
  | put (mode : Int) (key value : List Int)
  | del (mode : Int) (key : List Int)
  deriving DecidableEq

/-- The cache after one call. -/
def cache_apply (c : Cache) : CacheOp → Cache
  | CacheOp.get mode key => (cache_get c mode key).cache
  | CacheOp.put mode key value => (cache_put c mode key value).2
  | CacheOp.del mode key => (cache_del c mode key).2

/-- The cache after a sequence of calls, made one after the other. -/
def cache_run (c : Cache) (ops : List CacheOp) : Cache :=
  ops.foldl cache_apply c

/-- A sequence of calls that inserts, overwrites, reads and deletes. -/
def sample_ops : List CacheOp :=
  [CacheOp.put 1 [97] [120], CacheOp.put 2 [97] [121], CacheOp.get 1 [97],
    CacheOp.put 1 [101] [122], CacheOp.del 2 [97], CacheOp.put 1 [97] [123]]

/-! ## Eviction hook -/

/-- Modelled from the spec: `list_remove` of `ll.h` unlinks the node at address `addr`
from the chain it is in, without any search by mode and key (§4.2). -/
def list_remove (l : List ListNode) (addr : Nat) : List ListNode :=
  l.filter fun n => n.addr != addr

/-- What a call of `cache_try_dismiss` does: the value returned, the cache afterwards,
the region whose lock the call works on, whether the write lock of that region is held by
the caller on return, and whether `UNLOCK_ROW` has been called. -/
structure DismissResult where
  ret : Int
  cache : Cache
  region : Nat
  lock_held : Bool
  unlock_called : Bool
  deriving DecidableEq

/-- The function `cache_try_dismiss` of `cache.c`. `trywrlock` is the value that
`pthread_rwlock_trywrlock` returns for the region of the slot: `0` when the lock has been
acquired, an error number (`EBUSY = 16`) when it has not. The test `!WR_TRYLOCK_ROW(idx)`
holds exactly when that value is `0`. The node may sit in any chain: `list_remove` takes
the node alone. -/
def cache_try_dismiss (cache : Cache) (trywrlock : Int) (idx : Nat) (data_node : Nat) :
    DismissResult :=
  if trywrlock = 0 then
    { ret := 0
      cache := cache
      region := NREGION cache idx
      lock_held := true
      unlock_called := false }
  else
    { ret := 1
      cache := { cache with buckets := cache.buckets.map fun l => list_remove l data_node }
      region := NREGION cache idx
      lock_held := false
      unlock_called := true }

/-! ## Order of the steps of a deletion -/

/-- The steps of `cache_del` that touch the region lock, the chain, the LRU queue and the
heap. -/
inductive DelStep where
  | lock_region (region : Nat)
  | detach_chain_node
  | detach_lru_handle
  | unlock_region (region : Nat)
  | free_lru_handle
  | free_chain_node
  deriving DecidableEq

/-- The steps of a call of `cache_del`, in the order of the statements of `cache.c`:
`WR_LOCK_ROW`, `list_search_and_remove`, and then either `UNLOCK_ROW` (nothing found) or
`lru_remove`, `UNLOCK_ROW`, `lru_free_node`, `list_free_node`. -/
def cache_del_steps (cache : Cache) (mode : Int) (key : List Int) : List DelStep :=
  let idx := NROW cache key
  match list_search_and_remove (cache.bucket idx) mode key with
  | (none, _) =>
    [DelStep.lock_region (NREGION cache idx), DelStep.unlock_region (NREGION cache idx)]
  | (some _, _) =>
    [DelStep.lock_region (NREGION cache idx), DelStep.detach_chain_node,
      DelStep.detach_lru_handle, DelStep.unlock_region (NREGION cache idx),
      DelStep.free_lru_handle, DelStep.free_chain_node]

/-- Whether the region lock is held when the step at position `i` of a trace runs: the
last lock or unlock step before it is a lock. -/
def lock_held_at (t : List DelStep) (i : Nat) : Bool :=
  match ((t.take i).reverse.find? fun s =>
      match s with
      | DelStep.lock_region _ => true
      | DelStep.unlock_region _ => true
      | _ => false) with
  | some (DelStep.lock_region _) => true
  | _ => false

/-! ## Lines of a buffer -/

/-- The complete lines of a buffer, each without its terminating newline, and the bytes
that follow the last newline. -/
def split_lines : List Int → List (List Int) × List Int
  | [] => ([], [])
  | b :: bs =>
    if b = 10 then ([] :: (split_lines bs).1, (split_lines bs).2)
    else
      match (split_lines bs).1 with
      | [] => ([], b :: (split_lines bs).2)
      | l :: ls => ((b :: l) :: ls, (split_lines bs).2)

/-- The request made for one complete line, given without its newline: `EINVALID` when
the line with its newline is longer than `TEXT_LIMIT_SIZE`, what the parser finds in the
NUL-terminated line otherwise. -/
def line_request (TEXT_LIMIT_SIZE TEXT_MAX_TOKS : Nat) (line : List Int) : Request :=
  if line.length + 1 > TEXT_LIMIT_SIZE then (code.EINVALID, [], [])
  else
    ((text_parse TEXT_MAX_TOKS (line ++ [0])).op,
      (text_parse TEXT_MAX_TOKS (line ++ [0])).toks,
      (text_parse TEXT_MAX_TOKS (line ++ [0])).lens)

/-- Serving lines one after the other: one request to the router and one response for
each line, in order. The result is the cache afterwards, the requests and the
responses. -/
def serve_lines {σ : Type} (TEXT_LIMIT_SIZE TEXT_MAX_TOKS : Nat)
    (make_cache_request : σ → Request → σ × code × Option (List Int) × Nat) :
    σ → List (List Int) → σ × List Request × List (List Int)
  | cache, [] => (cache, [], [])
  | cache, line :: rest =>
    let req := line_request TEXT_LIMIT_SIZE TEXT_MAX_TOKS line
    let r := make_cache_request cache req
    let served := serve_lines TEXT_LIMIT_SIZE TEXT_MAX_TOKS make_cache_request r.1 rest
    (served.1, req :: served.2.1,
      answer_text_client TEXT_LIMIT_SIZE r.2.1 r.2.2.1 r.2.2.2 :: served.2.2)

/-- A router for examples: it leaves the cache alone and answers every request with the
code of the operation asked and no payload. -/
def echo_router (cache : Unit) (req : Request) : Unit × code × Option (List Int) × Nat :=
  (cache, req.1, none, 0)

/-- A connection whose buffer holds `"GET kkkk\nGET k\n"`, with nothing written yet. -/
def sample_handler_state : HandlerState Unit :=
  { cache := ()
    cdata := { buffer := [71, 69, 84, 32, 107, 107, 107, 107, 10, 71, 69, 84, 32, 107, 10] }
    out := []
    reqs := [] }

/-! # Theorems -/

/-! ## Basic facts about the table -/

theorem bucket_set_self (L : List (List ListNode)) (i : Nat) (x : List ListNode)
    (h : i < L.length) : (L.set i x).getD i [] = x := by
  simp [List.getD_eq_getElem?_getD, List.getElem?_set, h]

theorem bucket_set_ne (L : List (List ListNode)) (i j : Nat) (x : List ListNode)
    (h : i ≠ j) : (L.set i x).getD j [] = L.getD j [] := by
  simp [List.getD_eq_getElem?_getD, List.getElem?_set, h]

theorem NROW_lt (c : Cache) (key : List Int) (h : 0 < c.size) : NROW c key < c.size :=
  Nat.mod_lt _ h

theorem node_matches_iff (mode : Int) (key : List Int) (n : ListNode) :
    node_matches mode key n = true ↔ n.data.mode = mode ∧ n.data.key = key := by
  simp [node_matches]

/-- Searching after an update in place: when the search hit `n` before and the new entry
still matches, the search hits a node holding the new entry. -/
theorem list_search_set_data (l : List ListNode) (mode : Int) (key : List Int)
    (n : ListNode) (d : Data) (hd : d.mode = mode ∧ d.key = key)
    (h : list_search l mode key = some n) :
    ∃ m, list_search (list_set_data l n.addr d) mode key = some m ∧ m.data = d := by
  induction l with
  | nil => simp [list_search] at h
  | cons x xs ih =>
    unfold list_search list_set_data at *
    by_cases hx : node_matches mode key x = true
    · have hxn : x = n := by simpa [List.find?, hx] using h
      subst hxn
      refine ⟨{ x with data := d }, ?_, rfl⟩
      simp [List.find?, node_matches, hd]
    · have hxs : List.find? (node_matches mode key) xs = some n := by
        simpa [List.find?, hx] using h
      obtain ⟨m, hm, hmd⟩ := ih hxs
      by_cases ha : x.addr = n.addr
      · refine ⟨{ x with data := d }, ?_, rfl⟩
        simp [List.find?, node_matches, hd, ha]
      · refine ⟨m, ?_, hmd⟩
        simp only [List.map_cons, if_neg ha, List.find?, hx]
        exact hm

/-- Searching after an insertion at the end of a chain that held no match. -/
theorem list_search_append_new (l : List ListNode) (mode : Int) (key : List Int)
    (n : ListNode) (hn : node_matches mode key n = true)
    (h : list_search l mode key = none) :
    list_search (l ++ [n]) mode key = some n := by
  unfold list_search at *
  simp [List.find?_append, h, List.find?, hn]

/-- Binding a node to a handle does not change what a search matches. -/
theorem list_search_set_lru_priority (l : List ListNode) (a p : Nat) (mode : Int)
    (key : List Int) :
    list_search (list_set_lru_priority l a p) mode key =
      (list_search l mode key).map
        (fun n => if n.addr = a then { n with lru_priority := p } else n) := by
  unfold list_search list_set_lru_priority
  rw [List.find?_map]
  congr 2
  funext n
  by_cases h : n.addr = a <;> simp [h, node_matches]

/-! ## The two paths of each operation -/

theorem cache_put_miss (c : Cache) (mode : Int) (key value : List Int)
    (hs : list_search (c.bucket (NROW c key)) mode key = none) :
    cache_put c mode key value = (code.OK, { c with
      buckets := c.buckets.set (NROW c key) (list_set_lru_priority
        (c.bucket (NROW c key) ++
          [{ addr := c.heap_next, data := data_wrap key value mode, lru_priority := 0 }])
        c.heap_next (c.heap_next + 1)),
      queue := { addr := c.heap_next + 1, idx := NROW c key, data_node := c.heap_next }
        :: c.queue,
      heap_next := c.heap_next + 2 }) := by
  unfold cache_put
  simp only [hs, list_insert, lru_push]

theorem cache_put_hit (c : Cache) (mode : Int) (key value : List Int) (node : ListNode)
    (hs : list_search (c.bucket (NROW c key)) mode key = some node) :
    cache_put c mode key value = (code.OK, { c with
      buckets := c.buckets.set (NROW c key) (list_set_data (c.bucket (NROW c key)) node.addr
        { key := node.data.key, val := value, mode := mode }),
      queue := reset_lru_status c.queue node.lru_priority }) := by
  unfold cache_put
  simp only [hs, list_get_data, list_get_lru_priority]

theorem cache_get_miss (c : Cache) (mode : Int) (key : List Int)
    (hs : list_search (c.bucket (NROW c key)) mode key = none) :
    cache_get c mode key = { res := code.ENOTFOUND, val := none, cache := c } := by
  unfold cache_get
  simp only [hs]

theorem cache_get_hit (c : Cache) (mode : Int) (key : List Int) (node : ListNode)
    (hs : list_search (c.bucket (NROW c key)) mode key = some node) :
    cache_get c mode key =
      { res := code.OK
        val := some node.data.val
        cache := { c with queue := reset_lru_status c.queue node.lru_priority } } := by
  unfold cache_get
  simp only [hs, list_get_data, list_get_lru_priority, cache_get_lru_queue]

theorem cache_del_miss (c : Cache) (mode : Int) (key : List Int)
    (hs : list_search (c.bucket (NROW c key)) mode key = none) :
    cache_del c mode key = (code.ENOTFOUND, c) := by
  unfold list_search at hs
  unfold cache_del list_search_and_remove
  simp only [hs]

theorem cache_del_hit (c : Cache) (mode : Int) (key : List Int) (node : ListNode)
    (hs : list_search (c.bucket (NROW c key)) mode key = some node) :
    cache_del c mode key = (code.OK, { c with
      buckets := c.buckets.set (NROW c key)
        ((c.bucket (NROW c key)).eraseP (node_matches mode key)),
      queue := lru_remove c.queue node.lru_priority }) := by
  unfold list_search at hs
  unfold cache_del list_search_and_remove
  simp only [hs, list_get_lru_priority]

theorem cache_put_size (c : Cache) (mode : Int) (key value : List Int) :
    (cache_put c mode key value).2.size = c.size := by
  cases hs : list_search (c.bucket (NROW c key)) mode key with
  | none => rw [cache_put_miss c mode key value hs]
  | some node => rw [cache_put_hit c mode key value node hs]

theorem cache_put_code (c : Cache) (mode : Int) (key value : List Int) :
    (cache_put c mode key value).1 = code.OK := by
  cases hs : list_search (c.bucket (NROW c key)) mode key with
  | none => rw [cache_put_miss c mode key value hs]
  | some node => rw [cache_put_hit c mode key value node hs]

theorem cache_put_buckets_length (c : Cache) (mode : Int) (key value : List Int) :
    (cache_put c mode key value).2.buckets.length = c.buckets.length := by
  cases hs : list_search (c.bucket (NROW c key)) mode key with
  | none => rw [cache_put_miss c mode key value hs]; simp
  | some node => rw [cache_put_hit c mode key value node hs]; simp

/-- After `cache_put`, the search of the key's chain hits a node holding the value put. -/
theorem cache_put_search (c : Cache) (mode : Int) (key value : List Int)
    (hsize : 0 < c.size) (hlen : c.buckets.length = c.size) :
    ∃ m, list_search ((cache_put c mode key value).2.bucket (NROW c key)) mode key = some m
      ∧ m.data = { key := key, val := value, mode := mode } := by
  have hidx : NROW c key < c.buckets.length := hlen ▸ NROW_lt c key hsize
  cases hs : list_search (c.bucket (NROW c key)) mode key with
  | none =>
    refine ⟨{ addr := c.heap_next, data := data_wrap key value mode,
              lru_priority := c.heap_next + 1 }, ?_, rfl⟩
    rw [cache_put_miss c mode key value hs]
    simp only [Cache.bucket, bucket_set_self _ _ _ hidx]
    rw [list_search_set_lru_priority]
    have hs2 : list_search (c.buckets.getD (NROW c key) []) mode key = none := hs
    rw [list_search_append_new _ _ _ _ (by simp [node_matches, data_wrap]) hs2]
    simp
  | some node =>
    have hm := List.find?_some hs
    rw [node_matches_iff] at hm
    obtain ⟨m, h1, h2⟩ := list_search_set_data (c.bucket (NROW c key)) mode key node
      { key := node.data.key, val := value, mode := mode } ⟨rfl, hm.2⟩ hs
    refine ⟨m, ?_, ?_⟩
    · rw [cache_put_hit c mode key value node hs]
      simp only [Cache.bucket, bucket_set_self _ _ _ hidx]
      exact h1
    · rw [h2, hm.2]

/-! ## Sums over the slots of a table -/

theorem sum_map_set {α : Type} (g : List α → Nat) (L : List (List α)) (i : Nat)
    (x : List α) (h : i < L.length) :
    ((L.set i x).map g).sum + g (L.getD i []) = (L.map g).sum + g x := by
  induction L generalizing i with
  | nil => simp at h
  | cons y ys ih =>
    cases i with
    | zero => simp; omega
    | succ k =>
      have hk : k < ys.length := by simpa using h
      have := ih k hk
      simp only [List.set_cons_succ, List.map_cons, List.sum_cons, List.getD_cons_succ]
      omega

theorem sum_map_eq_of_zero {α : Type} (g : List α → Nat) (L : List (List α)) (i : Nat)
    (h : i < L.length) (hz : ∀ j, j ≠ i → g (L.getD j []) = 0) :
    (L.map g).sum = g (L.getD i []) := by
  induction L generalizing i with
  | nil => simp at h
  | cons y ys ih =>
    cases i with
    | zero =>
      have hys : ∀ z ∈ ys, g z = 0 := by
        intro z hzm
        obtain ⟨k, hk, rfl⟩ := List.getElem_of_mem hzm
        have := hz (k + 1) (by omega)
        simpa [List.getD_eq_getElem?_getD, hk] using this
      have : (ys.map g).sum = 0 := by
        apply List.sum_eq_zero
        intro v hv
        obtain ⟨z, hzm, rfl⟩ := List.mem_map.1 hv
        exact hys z hzm
      simp [this]
    | succ k =>
      have hk : k < ys.length := by simpa using h
      have h0 : g y = 0 := by simpa using hz 0 (by omega)
      have := ih k hk (fun j hj => by simpa using hz (j + 1) (by omega))
      simp [h0, this]

/-! ## The LRU queue -/

theorem mem_lru_remove (q : List LRUNode) (h : Nat) (x : LRUNode) :
    x ∈ lru_remove q h ↔ x ∈ q ∧ x.addr ≠ h := by
  simp [lru_remove]

theorem lru_remove_sublist (q : List LRUNode) (h : Nat) : (lru_remove q h).Sublist q :=
  List.filter_sublist q

/-- Unlinking a handle that is in a queue of distinct handles shortens it by one. -/
theorem length_lru_remove (q : List LRUNode) (h : Nat)
    (hq : (q.map LRUNode.addr).Nodup) (hm : ∃ x ∈ q, x.addr = h) :
    (lru_remove q h).length + 1 = q.length := by
  induction q with
  | nil => simp at hm
  | cons y ys ih =>
    have hnd : y.addr ∉ ys.map LRUNode.addr ∧ (ys.map LRUNode.addr).Nodup := by
      simpa using hq
    by_cases hy : y.addr = h
    · have hall : lru_remove ys h = ys := by
        unfold lru_remove
        apply List.filter_eq_self.2
        intro a ha
        have : a.addr ≠ h := fun e => hnd.1 (List.mem_map.2 ⟨a, ha, by rw [e, hy]⟩)
        simpa using this
      have : lru_remove (y :: ys) h = lru_remove ys h := by
        simp [lru_remove, hy]
      rw [this, hall]; simp
    · have hm2 : ∃ x ∈ ys, x.addr = h := by
        obtain ⟨x, hx, hxa⟩ := hm
        rcases List.mem_cons.1 hx with rfl | hx
        · exact absurd hxa hy
        · exact ⟨x, hx, hxa⟩
      have : lru_remove (y :: ys) h = y :: lru_remove ys h := by
        simp [lru_remove, hy]
      rw [this]; simp [ih hnd.2 hm2]

/-- What promotion does to a queue that holds the handle. -/
theorem reset_lru_status_of_mem (q : List LRUNode) (x : LRUNode)
    (hq : (q.map LRUNode.addr).Nodup) (hx : x ∈ q) :
    reset_lru_status q x.addr = x :: lru_remove q x.addr := by
  unfold reset_lru_status
  have : q.find? (fun n => n.addr == x.addr) = some x := by
    induction q with
    | nil => simp at hx
    | cons y ys ih =>
      have hnd : y.addr ∉ ys.map LRUNode.addr ∧ (ys.map LRUNode.addr).Nodup := by
        simpa using hq
      rcases List.mem_cons.1 hx with rfl | hx
      · simp [List.find?]
      · have hne : y.addr ≠ x.addr := fun e => hnd.1 (List.mem_map.2 ⟨x, hx, e.symm⟩)
        have hb : (y.addr == x.addr) = false := by simpa using hne
        simp only [List.find?, hb, ih hnd.2 hx]
  rw [this]

theorem lru_remove_of_not_mem (q : List LRUNode) (h : Nat)
    (hn : h ∉ q.map LRUNode.addr) : lru_remove q h = q := by
  unfold lru_remove
  apply List.filter_eq_self.2
  intro a ha
  have : a.addr ≠ h := fun e => hn (List.mem_map.2 ⟨a, ha, e⟩)
  simpa using this

/-- Putting an unlinked handle back in front gives the queue up to order. -/
theorem cons_lru_remove_perm (q : List LRUNode) (x : LRUNode)
    (hq : (q.map LRUNode.addr).Nodup) (hx : x ∈ q) :
    (x :: lru_remove q x.addr).Perm q := by
  induction q with
  | nil => simp at hx
  | cons y ys ih =>
    have hnd : y.addr ∉ ys.map LRUNode.addr ∧ (ys.map LRUNode.addr).Nodup := by
      simpa using hq
    by_cases hxy : x = y
    · subst hxy
      have : lru_remove (x :: ys) x.addr = ys := by
        have h1 : lru_remove (x :: ys) x.addr = lru_remove ys x.addr := by
          simp [lru_remove]
        rw [h1, lru_remove_of_not_mem ys x.addr hnd.1]
      rw [this]
    · have hx2 : x ∈ ys := by
        rcases List.mem_cons.1 hx with e | e
        · exact absurd e hxy
        · exact e
      have hne : y.addr ≠ x.addr := fun e => hnd.1 (List.mem_map.2 ⟨x, hx2, e.symm⟩)
      have : lru_remove (y :: ys) x.addr = y :: lru_remove ys x.addr := by
        simp [lru_remove, hne]
      rw [this]
      exact (List.Perm.swap y x _).trans ((ih hnd.2 hx2).cons y)

theorem reset_lru_status_perm (q : List LRUNode) (h : Nat)
    (hq : (q.map LRUNode.addr).Nodup) : (reset_lru_status q h).Perm q := by
  unfold reset_lru_status
  cases hf : q.find? (fun n => n.addr == h) with
  | none => exact List.Perm.refl q
  | some n =>
    have hn : n ∈ q := List.mem_of_find?_eq_some hf
    have hna : n.addr = h := by simpa using List.find?_some hf
    subst hna
    exact cons_lru_remove_perm q n hq hn

/-! ## Well-formedness is kept by every operation -/

theorem bucket_set (L : List (List ListNode)) (idx i : Nat) (x : List ListNode)
    (h : idx < L.length) :
    (L.set idx x).getD i [] = if i = idx then x else L.getD i [] := by
  by_cases e : i = idx
  · subst e; rw [bucket_set_self L i x h, if_pos rfl]
  · rw [bucket_set_ne L idx i x (Ne.symm e), if_neg e]

theorem mem_of_map_skel {l l' : List ListNode} (h : l'.map ListNode.skel = l.map ListNode.skel)
    {n' : ListNode} (hn : n' ∈ l') : ∃ n ∈ l, n.skel = n'.skel := by
  have : n'.skel ∈ l.map ListNode.skel := h ▸ List.mem_map_of_mem _ hn
  obtain ⟨n, hn1, hn2⟩ := List.mem_map.1 this
  exact ⟨n, hn1, hn2⟩

theorem map_of_map_skel {β : Type} (g : Nat × Nat × Int × List Int → β)
    {l l' : List ListNode} (h : l'.map ListNode.skel = l.map ListNode.skel) :
    l'.map (fun n => g n.skel) = l.map (fun n => g n.skel) := by
  have := congrArg (List.map g) h
  simpa [List.map_map] using this

theorem sum_map_length_congr (L L' : List (List ListNode)) (hl : L'.length = L.length)
    (h : ∀ i, (L'.getD i []).length = (L.getD i []).length) :
    L'.flatten.length = L.flatten.length := by
  rw [List.length_flatten, List.length_flatten]
  congr 1
  apply List.ext_getElem
  · simp [hl]
  · intro i h1 h2
    have h1' : i < L'.length := by simpa using h1
    have h2' : i < L.length := by simpa using h2
    have := h i
    simpa [List.getD_eq_getElem?_getD, h1', h2'] using this

/-- Well-formedness only looks at the skeleton of the chains and at the queue up to
order. -/
theorem WF_congr (c c' : Cache) (hb : ∀ i, (c'.bucket i).map ListNode.skel =
      (c.bucket i).map ListNode.skel)
    (hq : c'.queue.Perm c.queue) (hsz : c'.size = c.size)
    (hlen : c'.buckets.length = c.buckets.length) (hhn : c'.heap_next = c.heap_next)
    (w : c.WF) : c'.WF where
  size_pos := hsz ▸ w.size_pos
  buckets_length := by rw [hlen, hsz]; exact w.buckets_length
  slot := by
    intro i n' hn'
    obtain ⟨n, hn, e⟩ := mem_of_map_skel (hb i) hn'
    have hk : n'.data.key = n.data.key := by
      simp only [ListNode.skel, Prod.mk.injEq] at e; exact e.2.2.2.symm
    have := w.slot i n hn
    unfold NROW at *
    rw [hsz, hk]; exact this
  uniq := by
    intro i
    have := map_of_map_skel (fun s => (s.2.2.1, s.2.2.2)) (hb i)
    have e : (c'.bucket i).map ListNode.ident = (c.bucket i).map ListNode.ident := this
    rw [e]; exact w.uniq i
  chain_addr := by
    intro i
    have := map_of_map_skel (fun s => s.1) (hb i)
    have e : (c'.bucket i).map ListNode.addr = (c.bucket i).map ListNode.addr := this
    rw [e]; exact w.chain_addr i
  cross_addr := by
    intro i j n' hn' m' hm' e
    obtain ⟨n, hn, en⟩ := mem_of_map_skel (hb i) hn'
    obtain ⟨m, hm, em⟩ := mem_of_map_skel (hb j) hm'
    simp only [ListNode.skel, Prod.mk.injEq] at en em
    exact w.cross_addr i j n hn m hm (by rw [en.1, em.1]; exact e)
  queue_addr := (hq.map LRUNode.addr).nodup_iff.2 w.queue_addr
  bound := by
    intro i n' hn'
    obtain ⟨n, hn, en⟩ := mem_of_map_skel (hb i) hn'
    simp only [ListNode.skel, Prod.mk.injEq] at en
    have := w.bound i n hn
    rw [en.1, en.2.1] at this
    exact hq.mem_iff.2 this
  back := by
    intro h hh
    obtain ⟨n, hn, e1, e2⟩ := w.back h (hq.mem_iff.1 hh)
    have : n.skel ∈ (c'.bucket h.idx).map ListNode.skel := by
      rw [hb]; exact List.mem_map_of_mem _ hn
    obtain ⟨n', hn', en⟩ := List.mem_map.1 this
    simp only [ListNode.skel, Prod.mk.injEq] at en
    exact ⟨n', hn', by rw [en.1, e1], by rw [en.2.1, e2]⟩
  count := by
    rw [hq.length_eq, w.count]
    unfold Cache.nodes
    refine (sum_map_length_congr c.buckets c'.buckets hlen ?_).symm
    intro i
    have := congrArg List.length (hb i)
    simpa [Cache.bucket] using this
  node_fresh := by
    intro i n' hn'
    obtain ⟨n, hn, en⟩ := mem_of_map_skel (hb i) hn'
    simp only [ListNode.skel, Prod.mk.injEq] at en
    rw [hhn, ← en.1]; exact w.node_fresh i n hn
  queue_fresh := by
    intro h hh
    rw [hhn]; exact w.queue_fresh h (hq.mem_iff.1 hh)

theorem list_set_data_skel (l : List ListNode) (node : ListNode) (d : Data)
    (hl : (l.map ListNode.addr).Nodup) (hn : node ∈ l)
    (hm : d.mode = node.data.mode) (hk : d.key = node.data.key) :
    (list_set_data l node.addr d).map ListNode.skel = l.map ListNode.skel := by
  unfold list_set_data
  rw [List.map_map]
  apply List.map_congr_left
  intro n hnl
  by_cases e : n.addr = node.addr
  · have : n = node := List.inj_on_of_nodup_map hl hnl hn e
    subst this
    simp [ListNode.skel, hm, hk]
  · simp [e]

theorem WF_cache_init (size nregions : Nat) (h0 : 0 < size) (h32 : size < 2 ^ 32) :
    (cache_init size nregions).WF := by
  have hb : ∀ i, (cache_init size nregions).bucket i = [] := by
    intro i
    unfold Cache.bucket cache_init list_init
    simp only [List.getD_eq_getElem?_getD, List.getElem?_replicate]
    split <;> rfl
  have hnodes : (cache_init size nregions).nodes = [] := by
    unfold Cache.nodes cache_init list_init
    simp
  refine ⟨?_, ?_, ?_, ?_, ?_, ?_, ?_, ?_, ?_, ?_, ?_, ?_⟩
  · show 0 < size % 2 ^ 32
    rw [Nat.mod_eq_of_lt h32]; exact h0
  · show (List.replicate size list_init).length = size % 2 ^ 32
    rw [Nat.mod_eq_of_lt h32]; simp
  · intro i n hn; rw [hb] at hn; simp at hn
  · intro i; rw [hb]; simp
  · intro i; rw [hb]; simp
  · intro i j n hn; rw [hb] at hn; simp at hn
  · simp [cache_init, lru_init]
  · intro i n hn; rw [hb] at hn; simp at hn
  · intro h hh; simp [cache_init, lru_init] at hh
  · rw [hnodes]; simp [cache_init, lru_init]
  · intro i n hn; rw [hb] at hn; simp at hn
  · intro h hh; simp [cache_init, lru_init] at hh

theorem WF_cache_get (c : Cache) (mode : Int) (key : List Int) (w : c.WF) :
    (cache_get c mode key).cache.WF := by
  cases hs : list_search (c.bucket (NROW c key)) mode key with
  | none => rw [cache_get_miss c mode key hs]; exact w
  | some node =>
    rw [cache_get_hit c mode key node hs]
    exact WF_congr c _ (fun _ => rfl) (reset_lru_status_perm _ _ w.queue_addr) rfl rfl rfl w

theorem WF_cache_put_hit (c : Cache) (mode : Int) (key value : List Int) (node : ListNode)
    (hs : list_search (c.bucket (NROW c key)) mode key = some node) (w : c.WF) :
    (cache_put c mode key value).2.WF := by
  have hidx : NROW c key < c.buckets.length := w.buckets_length ▸ NROW_lt c key w.size_pos
  have hmem : node ∈ c.bucket (NROW c key) := List.mem_of_find?_eq_some hs
  have hmt := (node_matches_iff mode key node).1 (List.find?_some hs)
  rw [cache_put_hit c mode key value node hs]
  refine WF_congr c _ ?_ (reset_lru_status_perm _ _ w.queue_addr) rfl (by simp) rfl w
  intro i
  show ((c.buckets.set (NROW c key) _).getD i []).map ListNode.skel = _
  rw [bucket_set _ _ _ _ hidx]
  by_cases e : i = NROW c key
  · rw [if_pos e, e]
    exact list_set_data_skel _ node _ (w.chain_addr _) hmem hmt.1.symm rfl
  · rw [if_neg e]; rfl

theorem list_set_lru_priority_new (l : List ListNode) (a p : Nat) (d : Data)
    (hl : ∀ n ∈ l, n.addr < a) :
    list_set_lru_priority (l ++ [{ addr := a, data := d, lru_priority := 0 }]) a p =
      l ++ [{ addr := a, data := d, lru_priority := p }] := by
  unfold list_set_lru_priority
  rw [List.map_append]
  congr 1
  · conv_rhs => rw [← List.map_id l]
    apply List.map_congr_left
    intro n hn
    have := hl n hn
    have hne : n.addr ≠ a := by omega
    simp [hne]
  · simp

theorem length_flatten_set (L : List (List ListNode)) (i : Nat) (x : List ListNode)
    (h : i < L.length) :
    (L.set i x).flatten.length + (L.getD i []).length = L.flatten.length + x.length := by
  rw [List.length_flatten, List.length_flatten]
  exact sum_map_set List.length L i x h

theorem WF_cache_put_miss (c : Cache) (mode : Int) (key value : List Int)
    (hs : list_search (c.bucket (NROW c key)) mode key = none) (w : c.WF) :
    (cache_put c mode key value).2.WF := by
  have hidx : NROW c key < c.buckets.length := w.buckets_length ▸ NROW_lt c key w.size_pos
  rw [cache_put_miss c mode key value hs,
    list_set_lru_priority_new _ _ _ _ (w.node_fresh (NROW c key))]
  generalize hnew : (ListNode.mk c.heap_next (data_wrap key value mode)
    (c.heap_next + 1)) = new
  generalize hc' : ({ c with
      buckets := c.buckets.set (NROW c key) (c.bucket (NROW c key) ++ [new]),
      queue := { addr := c.heap_next + 1, idx := NROW c key, data_node := c.heap_next }
        :: c.queue,
      heap_next := c.heap_next + 2 } : Cache) = c'
  have hq : c'.queue = LRUNode.mk (c.heap_next + 1) (NROW c key) c.heap_next :: c.queue := by
    rw [← hc']
  have hsz : c'.size = c.size := by rw [← hc']
  have hhn : c'.heap_next = c.heap_next + 2 := by rw [← hc']
  have hbs : c'.buckets = c.buckets.set (NROW c key) (c.bucket (NROW c key) ++ [new]) := by
    rw [← hc']
  have hb : ∀ i, c'.bucket i =
      if i = NROW c key then c.bucket (NROW c key) ++ [new] else c.bucket i := by
    intro i
    unfold Cache.bucket
    rw [hbs, bucket_set _ _ _ _ hidx]
    rfl
  have hmem : ∀ i n, n ∈ c'.bucket i ↔ n ∈ c.bucket i ∨ (i = NROW c key ∧ n = new) := by
    intro i n
    rw [hb]
    by_cases e : i = NROW c key
    · subst e; simp
    · simp [e]
  have hna : new.addr = c.heap_next := by rw [← hnew]
  have hnl : new.lru_priority = c.heap_next + 1 := by rw [← hnew]
  have hnk : new.data.key = key := by rw [← hnew]; rfl
  have hnm : new.data.mode = mode := by rw [← hnew]; rfl
  have hnone := List.find?_eq_none.1 hs
  refine ⟨?_, ?_, ?_, ?_, ?_, ?_, ?_, ?_, ?_, ?_, ?_, ?_⟩
  · rw [hsz]; exact w.size_pos
  · rw [hbs, hsz, List.length_set]; exact w.buckets_length
  · intro i n hn
    unfold NROW; rw [hsz]
    rcases (hmem i n).1 hn with h | ⟨h1, h2⟩
    · exact w.slot i n h
    · rw [h1, h2, hnk]; rfl
  · intro i
    rw [hb]
    by_cases e : i = NROW c key
    · rw [if_pos e, List.map_append, List.nodup_append]
      refine ⟨w.uniq _, by simp, ?_⟩
      intro x hx hx2
      obtain ⟨n, hn, rfl⟩ := List.mem_map.1 hx
      have : n.ident = new.ident := by simpa using hx2
      have hmt : node_matches mode key n = true := by
        rw [node_matches_iff]
        simp only [ListNode.ident, Prod.mk.injEq] at this
        exact ⟨this.1.trans hnm, this.2.trans hnk⟩
      exact hnone n hn hmt
    · rw [if_neg e]; exact w.uniq i
  · intro i
    rw [hb]
    by_cases e : i = NROW c key
    · rw [if_pos e, List.map_append, List.nodup_append]
      refine ⟨w.chain_addr _, by simp, ?_⟩
      intro x hx hx2
      obtain ⟨n, hn, rfl⟩ := List.mem_map.1 hx
      have : n.addr = new.addr := by simpa using hx2
      have := w.node_fresh _ n hn
      omega
    · rw [if_neg e]; exact w.chain_addr i
  · intro i j n hn m hm e
    rcases (hmem i n).1 hn with h | ⟨h1, h2⟩ <;> rcases (hmem j m).1 hm with g | ⟨g1, g2⟩
    · exact w.cross_addr i j n h m g e
    · have := w.node_fresh i n h; rw [g2, hna] at e; omega
    · have := w.node_fresh j m g; rw [h2, hna] at e; omega
    · rw [h1, g1]
  · rw [hq, List.map_cons, List.nodup_cons]
    refine ⟨?_, w.queue_addr⟩
    intro hx
    obtain ⟨h, hh, e⟩ := List.mem_map.1 hx
    have := w.queue_fresh h hh
    simp only at e
    omega
  · intro i n hn
    rw [hq]
    rcases (hmem i n).1 hn with h | ⟨h1, h2⟩
    · exact List.mem_cons_of_mem _ (w.bound i n h)
    · rw [h1, h2, hna, hnl]; exact List.mem_cons_self _ _
  · intro h hh
    rw [hq] at hh
    rcases List.mem_cons.1 hh with rfl | hh
    · exact ⟨new, (hmem _ _).2 (Or.inr ⟨rfl, rfl⟩), hna, hnl⟩
    · obtain ⟨n, hn, e1, e2⟩ := w.back h hh
      exact ⟨n, (hmem _ _).2 (Or.inl hn), e1, e2⟩
  · have := length_flatten_set c.buckets (NROW c key) (c.bucket (NROW c key) ++ [new]) hidx
    have hc := w.count
    unfold Cache.nodes at *
    unfold Cache.bucket at this
    rw [hq, hbs]
    unfold Cache.bucket
    simp only [List.length_cons, List.length_append, List.length_nil] at this ⊢
    omega
  · intro i n hn
    rw [hhn]
    rcases (hmem i n).1 hn with h | ⟨_, h2⟩
    · have := w.node_fresh i n h; omega
    · rw [h2, hna]; omega
  · intro h hh
    rw [hq] at hh
    rw [hhn]
    rcases List.mem_cons.1 hh with rfl | hh
    · simp
    · have := w.queue_fresh h hh; omega

theorem WF_cache_put (c : Cache) (mode : Int) (key value : List Int) (w : c.WF) :
    (cache_put c mode key value).2.WF := by
  cases hs : list_search (c.bucket (NROW c key)) mode key with
  | none => exact WF_cache_put_miss c mode key value hs w
  | some node => exact WF_cache_put_hit c mode key value node hs w

theorem eraseP_eq_erase (l : List ListNode) (p : ListNode → Bool) (node : ListNode)
    (h : l.find? p = some node) : l.eraseP p = l.erase node := by
  induction l with
  | nil => simp at h
  | cons x xs ih =>
    by_cases hx : p x = true
    · have : x = node := by simpa [List.find?, hx] using h
      subst this
      simp [List.eraseP, hx]
    · have hxs : xs.find? p = some node := by simpa [List.find?, hx] using h
      have hne : x ≠ node := fun e => hx (e ▸ List.find?_some hxs)
      have hb : (x == node) = false := by simpa using hne
      simp only [List.eraseP, hx, List.erase_cons, hb, ih hxs]
      simp

/-- In a well-formed cache two chain nodes bound to the same handle are the same node. -/
theorem Cache.WF.lru_inj {c : Cache} (w : c.WF) {i j : Nat} {n m : ListNode}
    (hn : n ∈ c.bucket i) (hm : m ∈ c.bucket j) (e : n.lru_priority = m.lru_priority) :
    i = j ∧ n = m := by
  have h1 := w.bound i n hn
  have h2 := w.bound j m hm
  have := List.inj_on_of_nodup_map w.queue_addr h1 h2 e
  simp only [LRUNode.mk.injEq] at this
  obtain ⟨_, hij, ha⟩ := this
  subst hij
  exact ⟨rfl, List.inj_on_of_nodup_map (w.chain_addr i) hn hm ha⟩

theorem WF_cache_del_hit (c : Cache) (mode : Int) (key : List Int) (node : ListNode)
    (hs : list_search (c.bucket (NROW c key)) mode key = some node) (w : c.WF) :
    (cache_del c mode key).2.WF := by
  have hidx : NROW c key < c.buckets.length := w.buckets_length ▸ NROW_lt c key w.size_pos
  have hnode : node ∈ c.bucket (NROW c key) := List.mem_of_find?_eq_some hs
  have hnd : (c.bucket (NROW c key)).Nodup := List.Nodup.of_map _ (w.chain_addr _)
  rw [cache_del_hit c mode key node hs, eraseP_eq_erase _ _ node hs]
  generalize hc' : ({ c with
      buckets := c.buckets.set (NROW c key) ((c.bucket (NROW c key)).erase node),
      queue := lru_remove c.queue node.lru_priority } : Cache) = c'
  have hq : c'.queue = lru_remove c.queue node.lru_priority := by rw [← hc']
  have hsz : c'.size = c.size := by rw [← hc']
  have hhn : c'.heap_next = c.heap_next := by rw [← hc']
  have hbs : c'.buckets = c.buckets.set (NROW c key) ((c.bucket (NROW c key)).erase node) := by
    rw [← hc']
  have hb : ∀ i, c'.bucket i =
      if i = NROW c key then (c.bucket (NROW c key)).erase node else c.bucket i := by
    intro i
    unfold Cache.bucket
    rw [hbs, bucket_set _ _ _ _ hidx]
    rfl
  have hsub : ∀ i, (c'.bucket i).Sublist (c.bucket i) := by
    intro i
    rw [hb]
    by_cases e : i = NROW c key
    · rw [if_pos e, e]; exact List.erase_sublist _ _
    · rw [if_neg e]
  have hmem : ∀ i n, n ∈ c'.bucket i ↔ n ∈ c.bucket i ∧ n ≠ node := by
    intro i n
    rw [hb]
    by_cases e : i = NROW c key
    · rw [if_pos e, e, hnd.mem_erase_iff]; exact And.comm
    · rw [if_neg e]
      constructor
      · intro h
        refine ⟨h, fun en => e ?_⟩
        exact w.cross_addr i _ n h node hnode (by rw [en])
      · exact fun h => h.1
  refine ⟨?_, ?_, ?_, ?_, ?_, ?_, ?_, ?_, ?_, ?_, ?_, ?_⟩
  · rw [hsz]; exact w.size_pos
  · rw [hbs, hsz, List.length_set]; exact w.buckets_length
  · intro i n hn
    unfold NROW; rw [hsz]
    exact w.slot i n ((hmem i n).1 hn).1
  · intro i; exact ((hsub i).map _).nodup (w.uniq i)
  · intro i; exact ((hsub i).map _).nodup (w.chain_addr i)
  · intro i j n hn m hm e
    exact w.cross_addr i j n ((hmem i n).1 hn).1 m ((hmem j m).1 hm).1 e
  · rw [hq]; exact ((lru_remove_sublist _ _).map _).nodup w.queue_addr
  · intro i n hn
    obtain ⟨h1, h2⟩ := (hmem i n).1 hn
    rw [hq, mem_lru_remove]
    refine ⟨w.bound i n h1, fun e => h2 ?_⟩
    exact (w.lru_inj h1 hnode e).2
  · intro h hh
    rw [hq, mem_lru_remove] at hh
    obtain ⟨n, hn, e1, e2⟩ := w.back h hh.1
    refine ⟨n, (hmem _ _).2 ⟨hn, fun en => hh.2 ?_⟩, e1, e2⟩
    rw [← e2, en]
  · have h1 := length_flatten_set c.buckets (NROW c key) ((c.bucket (NROW c key)).erase node)
      hidx
    have h2 := length_lru_remove c.queue node.lru_priority w.queue_addr
      ⟨_, w.bound _ node hnode, rfl⟩
    have h3 := List.length_erase_of_mem hnode
    have h4 : 0 < (c.bucket (NROW c key)).length := List.length_pos_of_mem hnode
    have hc := w.count
    unfold Cache.nodes at *
    unfold Cache.bucket at h1 h3 h4
    rw [hq, hbs]
    unfold Cache.bucket
    omega
  · intro i n hn
    rw [hhn]; exact w.node_fresh i n ((hmem i n).1 hn).1
  · intro h hh
    rw [hq, mem_lru_remove] at hh
    rw [hhn]; exact w.queue_fresh h hh.1

theorem WF_cache_del (c : Cache) (mode : Int) (key : List Int) (w : c.WF) :
    (cache_del c mode key).2.WF := by
  cases hs : list_search (c.bucket (NROW c key)) mode key with
  | none => rw [cache_del_miss c mode key hs]; exact w
  | some node => exact WF_cache_del_hit c mode key node hs w

/-! ## Chains and the whole table -/

theorem mem_nodes_iff (c : Cache) (n : ListNode) :
    n ∈ c.nodes ↔ ∃ i, n ∈ c.bucket i := by
  unfold Cache.nodes Cache.bucket
  rw [List.mem_flatten]
  constructor
  · rintro ⟨l, hl, hn⟩
    obtain ⟨i, hi, rfl⟩ := List.getElem_of_mem hl
    exact ⟨i, by simpa [List.getD_eq_getElem?_getD, hi] using hn⟩
  · rintro ⟨i, hn⟩
    by_cases hi : i < c.buckets.length
    · refine ⟨c.buckets[i], List.getElem_mem hi, ?_⟩
      simpa [List.getD_eq_getElem?_getD, hi] using hn
    · have : c.buckets.getD i [] = [] := by
        simp [List.getD_eq_getElem?_getD, List.getElem?_eq_none (Nat.le_of_not_lt hi)]
      rw [this] at hn
      simp at hn

/-- In a well-formed cache every node matching `(mode, key)` sits in the chain of the
key's slot. -/
theorem Cache.WF.mem_slot {c : Cache} (w : c.WF) {mode : Int} {key : List Int}
    {n : ListNode} (hn : n ∈ c.nodes) (hm : node_matches mode key n = true) :
    n ∈ c.bucket (NROW c key) := by
  obtain ⟨i, hi⟩ := (mem_nodes_iff c n).1 hn
  have := w.slot i n hi
  rw [((node_matches_iff mode key n).1 hm).2] at this
  rw [this]; exact hi

/-- In a well-formed cache the search of a chain finds every node that matches. -/
theorem Cache.WF.search_of_mem {c : Cache} (w : c.WF) {mode : Int} {key : List Int}
    {n : ListNode} (hn : n ∈ c.nodes) (hm : node_matches mode key n = true) :
    list_search (c.bucket (NROW c key)) mode key = some n := by
  have hmem := w.mem_slot hn hm
  cases hs : list_search (c.bucket (NROW c key)) mode key with
  | none => exact absurd hm (List.find?_eq_none.1 hs n hmem)
  | some x =>
    have hx : x ∈ c.bucket (NROW c key) := List.mem_of_find?_eq_some hs
    have hxm := (node_matches_iff mode key x).1 (List.find?_some hs)
    have hnm := (node_matches_iff mode key n).1 hm
    have : x.ident = n.ident := by
      simp only [ListNode.ident, Prod.mk.injEq]
      exact ⟨hxm.1.trans hnm.1.symm, hxm.2.trans hnm.2.symm⟩
    rw [List.inj_on_of_nodup_map (w.uniq _) hx hmem this]

theorem countP_le_one_of_nodup (l : List ListNode) (mode : Int) (key : List Int)
    (h : (l.map ListNode.ident).Nodup) : l.countP (node_matches mode key) ≤ 1 := by
  induction l with
  | nil => simp
  | cons x xs ih =>
    have hnd : x.ident ∉ xs.map ListNode.ident ∧ (xs.map ListNode.ident).Nodup := by
      simpa using h
    by_cases hx : node_matches mode key x = true
    · have hz : xs.countP (node_matches mode key) = 0 := by
        rw [List.countP_eq_zero]
        intro a ha hma
        apply hnd.1
        have h1 := (node_matches_iff mode key x).1 hx
        have h2 := (node_matches_iff mode key a).1 hma
        refine List.mem_map.2 ⟨a, ha, ?_⟩
        simp only [ListNode.ident, Prod.mk.injEq]
        exact ⟨h2.1.trans h1.1.symm, h2.2.trans h1.2.symm⟩
      rw [List.countP_cons_of_pos _ _ hx, hz]
    · rw [List.countP_cons_of_neg _ _ hx]
      exact ih hnd.2

/-- In a well-formed cache the number of nodes matching `(mode, key)` is one when the
search of the key's chain hits. -/
theorem Cache.WF.countP_of_search {c : Cache} (w : c.WF) {mode : Int} {key : List Int}
    {n : ListNode} (hs : list_search (c.bucket (NROW c key)) mode key = some n) :
    c.nodes.countP (node_matches mode key) = 1 := by
  have hidx : NROW c key < c.buckets.length := w.buckets_length ▸ NROW_lt c key w.size_pos
  have hn : n ∈ c.bucket (NROW c key) := List.mem_of_find?_eq_some hs
  have hm : node_matches mode key n = true := List.find?_some hs
  unfold Cache.nodes
  rw [List.countP_flatten, sum_map_eq_of_zero _ _ _ hidx]
  · apply Nat.le_antisymm
    · exact countP_le_one_of_nodup _ mode key (w.uniq _)
    · exact List.countP_pos_iff.2 ⟨n, hn, hm⟩
  · intro j hj
    rw [List.countP_eq_zero]
    intro a ha hma
    have h1 : a ∈ c.nodes := (mem_nodes_iff c a).2 ⟨j, ha⟩
    have h2 := w.mem_slot h1 hma
    exact hj (w.cross_addr j _ a ha a h2 rfl)

/-- An update in place of a node leaves the search for any other `(mode, key)` alone. -/
theorem list_search_set_data_other (l : List ListNode) (a : Nat) (d : Data)
    (mode : Int) (key : List Int)
    (H : ∀ n ∈ l, n.addr = a → node_matches mode key n = false)
    (hd : ¬ (d.mode = mode ∧ d.key = key)) :
    list_search (list_set_data l a d) mode key = list_search l mode key := by
  induction l with
  | nil => rfl
  | cons x xs ih =>
    have ih2 := ih (fun n hn => H n (List.mem_cons_of_mem _ hn))
    unfold list_search list_set_data at *
    by_cases e : x.addr = a
    · have h1 : node_matches mode key x = false := H x (List.mem_cons_self _ _) e
      have h2 : node_matches mode key { x with data := d } = false := by
        rw [← Bool.not_eq_true, node_matches_iff]; exact hd
      simp only [List.map_cons, if_pos e, List.find?_cons, h1, h2]
      exact ih2
    · simp only [List.map_cons, if_neg e, List.find?_cons]
      rw [ih2]

/-- After `cache_put`, `cache_get` of the same `(mode, key)` hands back the value put. -/
theorem cache_get_after_put (c : Cache) (mode : Int) (key value : List Int)
    (hsize : 0 < c.size) (hlen : c.buckets.length = c.size) :
    (cache_put c mode key value).1 = code.OK ∧
    (cache_get (cache_put c mode key value).2 mode key).res = code.OK ∧
    (cache_get (cache_put c mode key value).2 mode key).val = some value ∧
    (cache_get (cache_put c mode key value).2 mode key).vlen = some value.length := by
  obtain ⟨m, hm, hd⟩ := cache_put_search c mode key value hsize hlen
  have hrow : NROW (cache_put c mode key value).2 key = NROW c key := by
    unfold NROW; rw [cache_put_size]
  refine ⟨cache_put_code c mode key value, ?_⟩
  unfold GetResult.vlen cache_get
  simp only [hrow, hm, list_get_data, hd, Option.map_some', and_self]

/-! ## The cache engine: claims -/

/-- C1. Round trip: on a cache with `size > 0` whose table has `size` slots, `cache_put`
returns `OK` and a `cache_get` of the same `(mode, key)` right after it returns `OK`, the
bytes of the value that was put, and their count as length. -/
theorem cache_put_get_roundtrip (c : Cache) (mode : Int) (key value : List Int)
    (hsize : 0 < c.size) (hlen : c.buckets.length = c.size) :
    (cache_put c mode key value).1 = code.OK ∧
    (cache_get (cache_put c mode key value).2 mode key).res = code.OK ∧
    (cache_get (cache_put c mode key value).2 mode key).val = some value ∧
    (cache_get (cache_put c mode key value).2 mode key).vlen = some value.length :=
  cache_get_after_put c mode key value hsize hlen

theorem cache_put_get_roundtrip_witness :
    (0 < (cache_init 4 2).size ∧ (cache_init 4 2).buckets.length = (cache_init 4 2).size) ∧
    (cache_put (cache_init 4 2) 1 [107] [118, 49]).1 = code.OK ∧
    (cache_get (cache_put (cache_init 4 2) 1 [107] [118, 49]).2 1 [107]).res = code.OK ∧
    (cache_get (cache_put (cache_init 4 2) 1 [107] [118, 49]).2 1 [107]).val
      = some [118, 49] ∧
    (cache_get (cache_put (cache_init 4 2) 1 [107] [118, 49]).2 1 [107]).vlen = some 2 :=
  ⟨⟨by decide, by decide⟩,
    cache_put_get_roundtrip (cache_init 4 2) 1 [107] [118, 49] (by decide) (by decide)⟩

/-- C2. Overwrite: on a well-formed cache, after two `cache_put` of the same
`(mode, key)` the table holds exactly one node matching `(mode, key)` and `cache_get`
returns the second value. -/
theorem cache_put_overwrite (c : Cache) (mode : Int) (key v1 v2 : List Int) (w : c.WF) :
    (cache_put (cache_put c mode key v1).2 mode key v2).2.nodes.countP
      (node_matches mode key) = 1 ∧
    (cache_get (cache_put (cache_put c mode key v1).2 mode key v2).2 mode key).res
      = code.OK ∧
    (cache_get (cache_put (cache_put c mode key v1).2 mode key v2).2 mode key).val
      = some v2 := by
  have w1 := WF_cache_put c mode key v1 w
  have w2 := WF_cache_put _ mode key v2 w1
  obtain ⟨m, hm, -⟩ := cache_put_search _ mode key v2 w1.size_pos w1.buckets_length
  have hrow : NROW (cache_put (cache_put c mode key v1).2 mode key v2).2 key =
      NROW (cache_put c mode key v1).2 key := by
    unfold NROW; rw [cache_put_size]
  rw [← hrow] at hm
  have hrt := cache_get_after_put _ mode key v2 w1.size_pos w1.buckets_length
  exact ⟨w2.countP_of_search hm, hrt.2.1, hrt.2.2.1⟩

theorem cache_put_overwrite_witness :
    (cache_init 4 2).WF ∧
    (cache_put (cache_put (cache_init 4 2) 1 [107] [118]).2 1 [107] [119]).2.nodes.countP
      (node_matches 1 [107]) = 1 ∧
    (cache_get (cache_put (cache_put (cache_init 4 2) 1 [107] [118]).2 1 [107] [119]).2
      1 [107]).res = code.OK ∧
    (cache_get (cache_put (cache_put (cache_init 4 2) 1 [107] [118]).2 1 [107] [119]).2
      1 [107]).val = some [119] :=
  ⟨WF_cache_init 4 2 (by decide) (by decide),
    cache_put_overwrite (cache_init 4 2) 1 [107] [118] [119]
      (WF_cache_init 4 2 (by decide) (by decide))⟩

/-- A `cache_put` on `(mode, key)` leaves the search for any other pair alone. -/
theorem cache_put_search_other (c : Cache) (mode mode' : Int) (key key' value : List Int)
    (w : c.WF) (hne : ¬ (mode = mode' ∧ key = key')) :
    list_search ((cache_put c mode key value).2.bucket (NROW c key')) mode' key' =
      list_search (c.bucket (NROW c key')) mode' key' := by
  have hidx : NROW c key < c.buckets.length := w.buckets_length ▸ NROW_lt c key w.size_pos
  cases hs : list_search (c.bucket (NROW c key)) mode key with
  | none =>
    rw [cache_put_miss c mode key value hs,
      list_set_lru_priority_new _ _ _ _ (w.node_fresh (NROW c key))]
    show list_search ((c.buckets.set (NROW c key) _).getD (NROW c key') []) mode' key' = _
    rw [bucket_set _ _ _ _ hidx]
    by_cases e : NROW c key' = NROW c key
    · rw [if_pos e, e]
      unfold list_search
      rw [List.find?_append]
      have : node_matches mode' key' (ListNode.mk c.heap_next (data_wrap key value mode)
          (c.heap_next + 1)) = false := by
        rw [← Bool.not_eq_true, node_matches_iff]; exact hne
      simp [List.find?, this]
    · rw [if_neg e]; rfl
  | some node =>
    have hmem : node ∈ c.bucket (NROW c key) := List.mem_of_find?_eq_some hs
    have hmt := (node_matches_iff mode key node).1 (List.find?_some hs)
    rw [cache_put_hit c mode key value node hs]
    show list_search ((c.buckets.set (NROW c key) _).getD (NROW c key') []) mode' key' = _
    rw [bucket_set _ _ _ _ hidx]
    by_cases e : NROW c key' = NROW c key
    · rw [if_pos e, e]
      apply list_search_set_data_other
      · intro n hn ha
        have : n = node := List.inj_on_of_nodup_map (w.chain_addr _) hn hmem ha
        rw [this, ← Bool.not_eq_true, node_matches_iff]
        rintro ⟨h1, h2⟩
        exact hne ⟨hmt.1.symm.trans h1, hmt.2.symm.trans h2⟩
      · rintro ⟨h1, h2⟩
        exact hne ⟨h1, hmt.2.symm.trans h2⟩
    · rw [if_neg e]; rfl

/-- The code and the value handed back by `cache_get` are read off the search of the key's
chain. -/
theorem cache_get_eq_of_search (c c' : Cache) (mode : Int) (key : List Int)
    (h : list_search (c'.bucket (NROW c' key)) mode key =
      list_search (c.bucket (NROW c key)) mode key) :
    (cache_get c' mode key).res = (cache_get c mode key).res ∧
    (cache_get c' mode key).val = (cache_get c mode key).val := by
  cases hs : list_search (c.bucket (NROW c key)) mode key with
  | none =>
    rw [hs] at h
    rw [cache_get_miss c mode key hs, cache_get_miss c' mode key h]
    exact ⟨rfl, rfl⟩
  | some node =>
    rw [hs] at h
    rw [cache_get_hit c mode key node hs, cache_get_hit c' mode key node h]
    exact ⟨rfl, rfl⟩

/-- C3. Mode isolation: on a well-formed cache a `cache_put` in one mode on key `K`
leaves the code and the value of `cache_get` in any other mode on the same key bytes
unchanged; on the empty cache of `cache_init` the `cache_get` in the other mode returns
`ENOTFOUND`. -/
theorem cache_mode_isolation (c : Cache) (mode mode' : Int) (key value : List Int)
    (size nregions : Nat) (w : c.WF) (hne : mode ≠ mode')
    (h0 : 0 < size) (h32 : size < 2 ^ 32) :
    (cache_get (cache_put c mode key value).2 mode' key).res = (cache_get c mode' key).res ∧
    (cache_get (cache_put c mode key value).2 mode' key).val = (cache_get c mode' key).val ∧
    (cache_get (cache_put (cache_init size nregions) mode key value).2 mode' key).res
      = code.ENOTFOUND := by
  have key_fact : ∀ c : Cache, c.WF →
      (cache_get (cache_put c mode key value).2 mode' key).res = (cache_get c mode' key).res ∧
      (cache_get (cache_put c mode key value).2 mode' key).val
        = (cache_get c mode' key).val := by
    intro c w
    apply cache_get_eq_of_search
    have hrow : NROW (cache_put c mode key value).2 key = NROW c key := by
      unfold NROW; rw [cache_put_size]
    rw [hrow]
    exact cache_put_search_other c mode mode' key key value w (fun h => hne h.1)
  refine ⟨(key_fact c w).1, (key_fact c w).2, ?_⟩
  rw [(key_fact _ (WF_cache_init size nregions h0 h32)).1]
  rw [cache_get_miss]
  unfold list_search Cache.bucket cache_init list_init
  simp only [List.getD_eq_getElem?_getD, List.getElem?_replicate]
  split <;> rfl

theorem cache_mode_isolation_witness :
    ((cache_put (cache_init 4 2) 2 [97] [120]).2.WF ∧ (1 : Int) ≠ 2 ∧ 0 < 4 ∧ 4 < 2 ^ 32) ∧
    (cache_get (cache_put (cache_put (cache_init 4 2) 2 [97] [120]).2 1 [97] [121]).2
      2 [97]).res = (cache_get (cache_put (cache_init 4 2) 2 [97] [120]).2 2 [97]).res ∧
    (cache_get (cache_put (cache_put (cache_init 4 2) 2 [97] [120]).2 1 [97] [121]).2
      2 [97]).val = (cache_get (cache_put (cache_init 4 2) 2 [97] [120]).2 2 [97]).val ∧
    (cache_get (cache_put (cache_init 4 2) 1 [97] [121]).2 2 [97]).res = code.ENOTFOUND :=
  ⟨⟨WF_cache_put _ _ _ _ (WF_cache_init 4 2 (by decide) (by decide)), by decide, by decide,
      by decide⟩,
    cache_mode_isolation (cache_put (cache_init 4 2) 2 [97] [120]).2 1 2 [97] [121] 4 2
      (WF_cache_put _ _ _ _ (WF_cache_init 4 2 (by decide) (by decide))) (by decide)
      (by decide) (by decide)⟩

/-- C4. Deletion of a present key: on a well-formed cache that stores a node for
`(mode, key)`, `cache_del` returns `OK`, a `cache_get` of `(mode, key)` right after it
returns `ENOTFOUND`, and no handle of the LRU queue has the address the node was bound
to. -/
theorem cache_del_present (c : Cache) (mode : Int) (key : List Int) (node : ListNode)
    (w : c.WF) (hn : node ∈ c.nodes) (hm : node_matches mode key node = true) :
    (cache_del c mode key).1 = code.OK ∧
    (cache_get (cache_del c mode key).2 mode key).res = code.ENOTFOUND ∧
    ∀ h ∈ (cache_del c mode key).2.queue, h.addr ≠ node.lru_priority := by
  have hidx : NROW c key < c.buckets.length := w.buckets_length ▸ NROW_lt c key w.size_pos
  have hs := w.search_of_mem hn hm
  have hnd : (c.bucket (NROW c key)).Nodup := List.Nodup.of_map _ (w.chain_addr _)
  rw [cache_del_hit c mode key node hs, eraseP_eq_erase _ _ node hs]
  refine ⟨rfl, ?_, ?_⟩
  · rw [cache_get_miss]
    show list_search ((c.buckets.set (NROW c key) _).getD (NROW c key) []) mode key = none
    rw [bucket_set_self _ _ _ hidx]
    unfold list_search
    rw [List.find?_eq_none]
    intro x hx hxm
    obtain ⟨hx1, hx2⟩ := hnd.mem_erase_iff.1 hx
    have h1 := (node_matches_iff mode key x).1 hxm
    have h2 := (node_matches_iff mode key node).1 hm
    apply hx1
    apply List.inj_on_of_nodup_map (w.uniq (NROW c key)) hx2 (w.mem_slot hn hm)
    simp only [ListNode.ident, Prod.mk.injEq]
    exact ⟨h1.1.trans h2.1.symm, h1.2.trans h2.2.symm⟩
  · intro h hh
    exact ((mem_lru_remove _ _ _).1 hh).2

theorem cache_del_present_witness :
    ((cache_put (cache_init 4 2) 1 [107] [118]).2.WF ∧
      (⟨1, ⟨[107], [118], 1⟩, 2⟩ : ListNode) ∈ (cache_put (cache_init 4 2) 1 [107] [118]).2.nodes ∧
      node_matches 1 [107] ⟨1, ⟨[107], [118], 1⟩, 2⟩ = true) ∧
    (cache_del (cache_put (cache_init 4 2) 1 [107] [118]).2 1 [107]).1 = code.OK ∧
    (cache_get (cache_del (cache_put (cache_init 4 2) 1 [107] [118]).2 1 [107]).2
      1 [107]).res = code.ENOTFOUND ∧
    ∀ h ∈ (cache_del (cache_put (cache_init 4 2) 1 [107] [118]).2 1 [107]).2.queue,
      h.addr ≠ 2 :=
  ⟨⟨WF_cache_put _ _ _ _ (WF_cache_init 4 2 (by decide) (by decide)), by decide, by decide⟩,
    cache_del_present (cache_put (cache_init 4 2) 1 [107] [118]).2 1 [107]
      ⟨1, ⟨[107], [118], 1⟩, 2⟩
      (WF_cache_put _ _ _ _ (WF_cache_init 4 2 (by decide) (by decide)))
      (by decide) (by decide)⟩

/-- C5. Deletion of an absent key: when no node of the table matches `(mode, key)`,
`cache_del` returns `ENOTFOUND` and leaves the cache (every chain and the LRU queue) as it
was, and so does `cache_get`, which hands back no value. -/
theorem cache_del_get_absent (c : Cache) (mode : Int) (key : List Int)
    (habs : ∀ n ∈ c.nodes, node_matches mode key n = false) :
    cache_del c mode key = (code.ENOTFOUND, c) ∧
    cache_get c mode key = { res := code.ENOTFOUND, val := none, cache := c } := by
  have hs : list_search (c.bucket (NROW c key)) mode key = none := by
    unfold list_search
    rw [List.find?_eq_none]
    intro x hx
    rw [habs x ((mem_nodes_iff c x).2 ⟨_, hx⟩)]
    simp
  exact ⟨cache_del_miss c mode key hs, cache_get_miss c mode key hs⟩

theorem cache_del_get_absent_witness :
    (∀ n ∈ (cache_put (cache_init 4 2) 1 [107] [118]).2.nodes,
      node_matches 2 [107] n = false) ∧
    cache_del (cache_put (cache_init 4 2) 1 [107] [118]).2 2 [107] =
      (code.ENOTFOUND, (cache_put (cache_init 4 2) 1 [107] [118]).2) ∧
    cache_get (cache_put (cache_init 4 2) 1 [107] [118]).2 2 [107] =
      { res := code.ENOTFOUND, val := none,
        cache := (cache_put (cache_init 4 2) 1 [107] [118]).2 } :=
  ⟨by decide, cache_del_get_absent (cache_put (cache_init 4 2) 1 [107] [118]).2 2 [107]
    (by decide)⟩

/-! ## Recency -/

theorem cache_get_buckets (c : Cache) (mode : Int) (key : List Int) :
    (cache_get c mode key).cache.buckets = c.buckets ∧
    (cache_get c mode key).cache.size = c.size := by
  cases hs : list_search (c.bucket (NROW c key)) mode key with
  | none => rw [cache_get_miss c mode key hs]; exact ⟨rfl, rfl⟩
  | some node => rw [cache_get_hit c mode key node hs]; exact ⟨rfl, rfl⟩

/-- A `cache_get` of a stored `(mode, key)` succeeds and moves the handle of its node to
the head of the queue, the other handles keeping their order. -/
theorem cache_get_queue (c : Cache) (mode : Int) (key : List Int) (node : ListNode)
    (w : c.WF) (hn : node ∈ c.nodes) (hm : node_matches mode key node = true) :
    (cache_get c mode key).res = code.OK ∧
    (cache_get c mode key).cache.queue =
      { addr := node.lru_priority, idx := NROW c key, data_node := node.addr } ::
        c.queue.filter (fun h => h.addr != node.lru_priority) := by
  have hs := w.search_of_mem hn hm
  have hb := w.bound _ node (w.mem_slot hn hm)
  rw [cache_get_hit c mode key node hs]
  refine ⟨rfl, ?_⟩
  exact reset_lru_status_of_mem c.queue _ w.queue_addr hb

/-- A `cache_put` leaves a node for `(mode, key)` whose handle is at the head of the
queue, the other handles keeping their order. -/
theorem cache_put_queue (c : Cache) (mode : Int) (key value : List Int) (w : c.WF) :
    ∃ n ∈ (cache_put c mode key value).2.nodes, node_matches mode key n = true ∧
      (cache_put c mode key value).2.queue =
        { addr := n.lru_priority, idx := NROW c key, data_node := n.addr } ::
          c.queue.filter (fun h => h.addr != n.lru_priority) := by
  have hidx : NROW c key < c.buckets.length := w.buckets_length ▸ NROW_lt c key w.size_pos
  cases hs : list_search (c.bucket (NROW c key)) mode key with
  | none =>
    rw [cache_put_miss c mode key value hs,
      list_set_lru_priority_new _ _ _ _ (w.node_fresh (NROW c key))]
    refine ⟨ListNode.mk c.heap_next (data_wrap key value mode) (c.heap_next + 1), ?_, ?_, ?_⟩
    · rw [mem_nodes_iff]
      refine ⟨NROW c key, ?_⟩
      show _ ∈ (c.buckets.set (NROW c key) _).getD (NROW c key) []
      rw [bucket_set_self _ _ _ hidx]
      simp
    · simp [node_matches, data_wrap]
    · have : lru_remove c.queue (c.heap_next + 1) = c.queue := by
        apply lru_remove_of_not_mem
        intro hx
        obtain ⟨h, hh, e⟩ := List.mem_map.1 hx
        have := w.queue_fresh h hh
        omega
      show _ :: c.queue = _ :: lru_remove c.queue (c.heap_next + 1)
      rw [this]
  | some node =>
    have hmem : node ∈ c.bucket (NROW c key) := List.mem_of_find?_eq_some hs
    have hmt := (node_matches_iff mode key node).1 (List.find?_some hs)
    have hb := w.bound _ node hmem
    rw [cache_put_hit c mode key value node hs]
    refine ⟨{ node with data := { key := node.data.key, val := value, mode := mode } },
      ?_, ?_, ?_⟩
    · rw [mem_nodes_iff]
      refine ⟨NROW c key, ?_⟩
      show _ ∈ (c.buckets.set (NROW c key) _).getD (NROW c key) []
      rw [bucket_set_self _ _ _ hidx]
      unfold list_set_data
      exact List.mem_map.2 ⟨node, hmem, by simp⟩
    · simp [node_matches, hmt.2]
    · exact reset_lru_status_of_mem c.queue _ w.queue_addr hb

/-- A `cache_get` keeps the nodes of the table and the slot of every key. -/
theorem cache_get_nodes (c : Cache) (mode : Int) (key : List Int) :
    (cache_get c mode key).cache.nodes = c.nodes ∧
    ∀ k, NROW (cache_get c mode key).cache k = NROW c k := by
  obtain ⟨h1, h2⟩ := cache_get_buckets c mode key
  refine ⟨?_, fun k => ?_⟩
  · unfold Cache.nodes; rw [h1]
  · unfold NROW; rw [h2]

/-- The queue after `get(A)`, `get(B)`, `get(A)` on two stored, distinct pairs. -/
theorem cache_get_three_queue (c : Cache) (mA mB : Int) (A B : List Int)
    (nA nB : ListNode) (w : c.WF)
    (hA : nA ∈ c.nodes) (hAm : node_matches mA A nA = true)
    (hB : nB ∈ c.nodes) (hBm : node_matches mB B nB = true)
    (hAB : ¬ (mA = mB ∧ A = B)) :
    (cache_get (cache_get (cache_get c mA A).cache mB B).cache mA A).cache.queue =
      { addr := nA.lru_priority, idx := NROW c A, data_node := nA.addr } ::
      { addr := nB.lru_priority, idx := NROW c B, data_node := nB.addr } ::
        c.queue.filter (fun h => h.addr != nA.lru_priority && h.addr != nB.lru_priority) := by
  have hab : nA.lru_priority ≠ nB.lru_priority := by
    intro e
    have := (w.lru_inj (w.mem_slot hA hAm) (w.mem_slot hB hBm) e).2
    subst this
    have h1 := (node_matches_iff mA A nA).1 hAm
    have h2 := (node_matches_iff mB B nA).1 hBm
    exact hAB ⟨h1.1.symm.trans h2.1, h1.2.symm.trans h2.2⟩
  have w1 := WF_cache_get c mA A w
  have w2 := WF_cache_get _ mB B w1
  obtain ⟨n1, r1⟩ := cache_get_nodes c mA A
  obtain ⟨n2, r2⟩ := cache_get_nodes (cache_get c mA A).cache mB B
  have q1 := (cache_get_queue c mA A nA w hA hAm).2
  have q2 := (cache_get_queue _ mB B nB w1 (n1 ▸ hB) hBm).2
  have q3 := (cache_get_queue _ mA A nA w2 (n2 ▸ n1 ▸ hA) hAm).2
  rw [q3, q2, q1, r2, r1, r1]
  have e1 : (nA.lru_priority != nB.lru_priority) = true := by simpa using hab
  have e2 : (nB.lru_priority != nA.lru_priority) = true := by simpa using Ne.symm hab
  simp only [List.filter_cons, e1, e2, bne_self_eq_false, if_true, List.filter_filter,
    Bool.false_eq_true, if_false]
  congr 2
  apply List.filter_congr
  intro h _
  cases h.addr != nA.lru_priority <;> simp

/-- C6. Recency: on a well-formed cache, a `cache_get` of a stored `(mode, key)` and any
`cache_put` put the LRU handle of the entry at the head of the queue (the most recently
used end) and keep the other handles in their order; after `get(A)`, `get(B)`, `get(A)`
on two stored, distinct pairs the queue starts with the handle of `A`, then the handle of
`B`, followed by every other handle in its former order. -/
theorem cache_recency (c : Cache) (mA mB m : Int) (A B K V : List Int)
    (nA nB : ListNode) (w : c.WF)
    (hA : nA ∈ c.nodes) (hAm : node_matches mA A nA = true)
    (hB : nB ∈ c.nodes) (hBm : node_matches mB B nB = true)
    (hAB : ¬ (mA = mB ∧ A = B)) :
    ((cache_get c mA A).res = code.OK ∧
      (cache_get c mA A).cache.queue =
        { addr := nA.lru_priority, idx := NROW c A, data_node := nA.addr } ::
          c.queue.filter (fun h => h.addr != nA.lru_priority)) ∧
    (∃ n ∈ (cache_put c m K V).2.nodes, node_matches m K n = true ∧
      (cache_put c m K V).2.queue =
        { addr := n.lru_priority, idx := NROW c K, data_node := n.addr } ::
          c.queue.filter (fun h => h.addr != n.lru_priority)) ∧
    (cache_get (cache_get (cache_get c mA A).cache mB B).cache mA A).cache.queue =
      { addr := nA.lru_priority, idx := NROW c A, data_node := nA.addr } ::
      { addr := nB.lru_priority, idx := NROW c B, data_node := nB.addr } ::
        c.queue.filter (fun h => h.addr != nA.lru_priority && h.addr != nB.lru_priority) :=
  ⟨cache_get_queue c mA A nA w hA hAm, cache_put_queue c m K V w,
    cache_get_three_queue c mA mB A B nA nB w hA hAm hB hBm hAB⟩

theorem WF_sample_cache : sample_cache.WF :=
  WF_cache_put _ _ _ _ (WF_cache_put _ _ _ _ (WF_cache_put _ _ _ _
    (WF_cache_init 4 2 (by decide) (by decide))))

theorem cache_recency_witness :
    (sample_cache.WF ∧
      (⟨1, ⟨[97], [120], 1⟩, 2⟩ : ListNode) ∈ sample_cache.nodes ∧
      node_matches 1 [97] ⟨1, ⟨[97], [120], 1⟩, 2⟩ = true ∧
      (⟨3, ⟨[98], [121], 1⟩, 4⟩ : ListNode) ∈ sample_cache.nodes ∧
      node_matches 1 [98] ⟨3, ⟨[98], [121], 1⟩, 4⟩ = true ∧
      ¬ ((1 : Int) = 1 ∧ ([97] : List Int) = [98])) ∧
    ((cache_get sample_cache 1 [97]).res = code.OK ∧
      (cache_get sample_cache 1 [97]).cache.queue =
        { addr := 2, idx := NROW sample_cache [97], data_node := 1 } ::
          sample_cache.queue.filter (fun h => h.addr != 2)) ∧
    (∃ n ∈ (cache_put sample_cache 2 [100] [123]).2.nodes,
      node_matches 2 [100] n = true ∧
      (cache_put sample_cache 2 [100] [123]).2.queue =
        { addr := n.lru_priority, idx := NROW sample_cache [100], data_node := n.addr } ::
          sample_cache.queue.filter (fun h => h.addr != n.lru_priority)) ∧
    (cache_get (cache_get (cache_get sample_cache 1 [97]).cache 1 [98]).cache
        1 [97]).cache.queue =
      { addr := 2, idx := NROW sample_cache [97], data_node := 1 } ::
      { addr := 4, idx := NROW sample_cache [98], data_node := 3 } ::
        sample_cache.queue.filter (fun h => h.addr != 2 && h.addr != 4) :=
  ⟨⟨WF_sample_cache, by decide, by decide, by decide, by decide, by decide⟩,
    cache_recency sample_cache 1 1 2 [97] [98] [100] [123]
      ⟨1, ⟨[97], [120], 1⟩, 2⟩ ⟨3, ⟨[98], [121], 1⟩, 4⟩
      WF_sample_cache (by decide) (by decide) (by decide) (by decide) (by decide)⟩

/-! ## The text protocol: tokens -/

theorem cstr_append_nul (line rest : List Int) (h : ∀ c ∈ line, c ≠ 0) :
    cstr (line ++ 0 :: rest) = line := by
  unfold cstr
  rw [List.takeWhile_append_of_pos (fun a ha => by simpa using h a ha)]
  simp

theorem is_delim_delim (c : Int) : is_delim delim c = true ↔ c = 32 ∨ c = 9 := by
  simp [is_delim, delim]

/-- The code `text_parser` returns, from the tokens it sees. -/
theorem text_parse_of_tokens (TEXT_MAX_TOKS : Nat) (buf : List Int)
    (op_str : Option (List Int)) (toks : List (List Int)) (more : Option (List Int))
    (h : text_parser_tokens TEXT_MAX_TOKS buf = (op_str, toks, more)) :
    text_parse TEXT_MAX_TOKS buf =
      { op :=
          if (if op_str.isSome then 1 else 0) + toks.length = 1
              ∧ op_str = some (code_str code.STATS) then code.STATS
          else if (if op_str.isSome then 1 else 0) + toks.length = 2
              ∧ op_str = some (code_str code.GET) then code.GET
          else if (if op_str.isSome then 1 else 0) + toks.length = 2
              ∧ op_str = some (code_str code.DEL) then code.DEL
          else if (if op_str.isSome then 1 else 0) + toks.length = 3
              ∧ op_str = some (code_str code.PUT) then code.PUT
          else code.EUNK
        toks := toks
        lens := toks.map List.length } := by
  unfold text_parse
  rw [h]

/-- The code `text_parser` returns is never `EINVALID`: the chain of tests that follows
the assignment of `EINVALID` assigns `op` in every branch. -/
theorem text_parse_ne_EINVALID (TEXT_MAX_TOKS : Nat) (buf : List Int) :
    (text_parse TEXT_MAX_TOKS buf).op ≠ code.EINVALID := by
  unfold text_parse
  simp only
  split_ifs <;> simp

/-- C7, counterexample. On `"GET a b"` the first token is a recognised operation name and
the number of tokens that follow (2) is not its arity (1), yet `text_parser` returns
`EUNK`, not `EINVALID`, be `TEXT_MAX_TOKS` 4 or 3. -/
theorem text_parse_arity_counterexample :
    ((text_parser_tokens 4 [71, 69, 84, 32, 97, 32, 98, 0]).1 = some (code_str code.GET) ∧
      (text_parser_tokens 4 [71, 69, 84, 32, 97, 32, 98, 0]).2.1 = [[97], [98]] ∧
      (text_parser_tokens 4 [71, 69, 84, 32, 97, 32, 98, 0]).2.2 = none ∧
      arity code.GET = 1 ∧
      (text_parse 4 [71, 69, 84, 32, 97, 32, 98, 0]).op = code.EUNK ∧
      (text_parse 4 [71, 69, 84, 32, 97, 32, 98, 0]).op ≠ code.EINVALID) ∧
    ((text_parser_tokens 3 [71, 69, 84, 32, 97, 32, 98, 0]).2.1 = [[97], [98]] ∧
      (text_parse 3 [71, 69, 84, 32, 97, 32, 98, 0]).op = code.EUNK ∧
      (text_parse 3 [71, 69, 84, 32, 97, 32, 98, 0]).op ≠ code.EINVALID) := by
  decide

/-- C7, amended. When the first token of the line is a recognised operation name, the
line has no more argument tokens than `toks` can hold (the `strtok_r` call after the loop
returns `NULL`) and their number is not the arity of the operation, `text_parser` returns
`EUNK`. -/
theorem text_parse_arity (TEXT_MAX_TOKS : Nat) (buf : List Int) (o : code)
    (ho : o ∈ [code.STATS, code.GET, code.DEL, code.PUT])
    (hop : (text_parser_tokens TEXT_MAX_TOKS buf).1 = some (code_str o))
    (_hmore : (text_parser_tokens TEXT_MAX_TOKS buf).2.2 = none)
    (har : (text_parser_tokens TEXT_MAX_TOKS buf).2.1.length ≠ arity o) :
    (text_parse TEXT_MAX_TOKS buf).op = code.EUNK := by
  rcases h : text_parser_tokens TEXT_MAX_TOKS buf with ⟨op_str, toks, more⟩
  rw [h] at hop har
  simp only at hop har
  subst hop
  rw [text_parse_of_tokens TEXT_MAX_TOKS buf _ _ _ h]
  simp only [List.mem_cons, List.mem_singleton, List.not_mem_nil, or_false] at ho
  rcases ho with rfl | rfl | rfl | rfl
  · simp [code_str, arity] at har ⊢
    exact har
  · simp [code_str, arity] at har ⊢
    omega
  · simp [code_str, arity] at har ⊢
    omega
  · simp [code_str, arity] at har ⊢
    omega

theorem text_parse_arity_witness :
    (code.GET ∈ [code.STATS, code.GET, code.DEL, code.PUT] ∧
      (text_parser_tokens 4 [71, 69, 84, 32, 97, 32, 98, 0]).1 = some (code_str code.GET) ∧
      (text_parser_tokens 4 [71, 69, 84, 32, 97, 32, 98, 0]).2.2 = none ∧
      (text_parser_tokens 4 [71, 69, 84, 32, 97, 32, 98, 0]).2.1.length ≠ arity code.GET) ∧
    (text_parse 4 [71, 69, 84, 32, 97, 32, 98, 0]).op = code.EUNK :=
  ⟨⟨by decide, by decide, by decide, by decide⟩,
    text_parse_arity 4 [71, 69, 84, 32, 97, 32, 98, 0] code.GET (by decide) (by decide)
      (by decide) (by decide)⟩

/-- C9. Unknown command: when the first token of the line is none of `STATS`, `GET`,
`DEL`, `PUT`, or the line has no token at all, `text_parser` returns `EUNK`, whatever
follows; so it does on the empty line and on a line of spaces and tabs only. -/
theorem text_parse_unknown (TEXT_MAX_TOKS : Nat) (buf blanks rest : List Int)
    (hop : ∀ o ∈ [code.STATS, code.GET, code.DEL, code.PUT],
      (text_parser_tokens TEXT_MAX_TOKS buf).1 ≠ some (code_str o))
    (hb : ∀ c ∈ blanks, c = 32 ∨ c = 9) :
    (text_parse TEXT_MAX_TOKS buf).op = code.EUNK ∧
    (text_parse TEXT_MAX_TOKS (0 :: rest)).op = code.EUNK ∧
    (text_parse TEXT_MAX_TOKS (blanks ++ 0 :: rest)).op = code.EUNK := by
  have key : ∀ b : List Int, (∀ o ∈ [code.STATS, code.GET, code.DEL, code.PUT],
      (text_parser_tokens TEXT_MAX_TOKS b).1 ≠ some (code_str o)) →
      (text_parse TEXT_MAX_TOKS b).op = code.EUNK := by
    intro b hb
    rcases h : text_parser_tokens TEXT_MAX_TOKS b with ⟨op_str, toks, more⟩
    rw [h] at hb
    rw [text_parse_of_tokens TEXT_MAX_TOKS b _ _ _ h]
    have h1 := hb code.STATS (by decide)
    have h2 := hb code.GET (by decide)
    have h3 := hb code.DEL (by decide)
    have h4 := hb code.PUT (by decide)
    simp only at h1 h2 h3 h4
    simp [h1, h2, h3, h4]
  have hblank : ∀ bl : List Int, (∀ c ∈ bl, c = 32 ∨ c = 9) →
      (text_parser_tokens TEXT_MAX_TOKS (bl ++ 0 :: rest)).1 = none := by
    intro bl hbl
    unfold text_parser_tokens
    rw [cstr_append_nul]
    · unfold strtok_r
      have : List.dropWhile (is_delim delim) bl = [] := by
        rw [List.dropWhile_eq_nil_iff]
        exact fun c hc => (is_delim_delim c).2 (hbl c hc)
      rw [this]
    · intro c hc
      rcases hbl c hc with rfl | rfl <;> decide
  refine ⟨key buf hop, ?_, ?_⟩
  · apply key
    intro o _
    have := hblank [] (by simp)
    rw [List.nil_append] at this
    rw [this]; simp
  · apply key
    intro o _
    rw [hblank blanks hb]; simp

theorem text_parse_unknown_witness :
    ((∀ o ∈ [code.STATS, code.GET, code.DEL, code.PUT],
        (text_parser_tokens 4 [71, 69, 84, 83, 32, 97, 32, 98, 32, 99, 32, 100, 0]).1
          ≠ some (code_str o)) ∧
      (∀ c ∈ ([32, 9, 32] : List Int), c = 32 ∨ c = 9)) ∧
    ((text_parse 4 [71, 69, 84, 83, 32, 97, 32, 98, 32, 99, 32, 100, 0]).op = code.EUNK ∧
      (text_parse 4 (0 :: [7])).op = code.EUNK ∧
      (text_parse 4 ([32, 9, 32] ++ 0 :: [7])).op = code.EUNK) :=
  ⟨⟨by decide, by decide⟩,
    text_parse_unknown 4 [71, 69, 84, 83, 32, 97, 32, 98, 32, 99, 32, 100, 0] [32, 9, 32] [7]
      (by decide) (by decide)⟩

/-! ## Framing -/

theorem memchr_lt (X : List Int) (ch : Int) (e : Nat) (h : memchr X ch = some e) :
    e < X.length := by
  induction X generalizing e with
  | nil => simp [memchr] at h
  | cons x xs ih =>
    unfold memchr at h
    by_cases hx : x = ch
    · simp [hx] at h; subst h; simp
    · simp only [if_neg hx, Option.map_eq_some'] at h
      obtain ⟨k, hk, rfl⟩ := h
      have := ih k hk
      simp; omega

theorem memchr_append (X Y : List Int) (ch : Int) (e : Nat) (h : memchr X ch = some e) :
    memchr (X ++ Y) ch = some e := by
  induction X generalizing e with
  | nil => simp [memchr] at h
  | cons x xs ih =>
    unfold memchr at h
    rw [List.cons_append]
    unfold memchr
    by_cases hx : x = ch
    · simpa [hx] using h
    · simp only [if_neg hx, Option.map_eq_some'] at h ⊢
      obtain ⟨k, hk, rfl⟩ := h
      exact ⟨k, ih k hk, rfl⟩

theorem cstr_append_of_mem (A Y : List Int) (h : (0 : Int) ∈ A) : cstr (A ++ Y) = cstr A := by
  induction A with
  | nil => simp at h
  | cons x xs ih =>
    unfold cstr at *
    by_cases hx : x = 0
    · simp [List.takeWhile_cons, hx]
    · have hm : (0 : Int) ∈ xs := by
        rcases List.mem_cons.1 h with e | e
        · exact absurd e.symm hx
        · exact e
      simp [List.takeWhile_cons, hx, ih hm]

theorem text_parse_congr (TEXT_MAX_TOKS : Nat) (b1 b2 : List Int) (h : cstr b1 = cstr b2) :
    text_parse TEXT_MAX_TOKS b1 = text_parse TEXT_MAX_TOKS b2 := by
  unfold text_parse text_parser_tokens
  rw [h]

/-- One round of the loop only looks at the line it consumes: bytes that follow the
buffer are carried along. -/
theorem text_handler_step_append {σ : Type} (L M : Nat)
    (route : σ → Request → σ × code × Option (List Int) × Nat)
    (st : HandlerState σ) (X Y : List Int) (e : Nat) (h : memchr X 10 = some e) :
    text_handler_step L M route { st with cdata := { buffer := X ++ Y } } e =
      { text_handler_step L M route { st with cdata := { buffer := X } } e with
        cdata := { buffer :=
          (text_handler_step L M route { st with cdata := { buffer := X } } e).cdata.buffer
            ++ Y } } := by
  have hlt := memchr_lt X 10 e h
  have h1 : (X ++ Y).set e 0 = X.set e 0 ++ Y := List.set_append_left e 0 hlt
  have h2 : text_parse M ((X ++ Y).set e 0) = text_parse M (X.set e 0) := by
    rw [h1]
    apply text_parse_congr
    apply cstr_append_of_mem
    exact List.mem_iff_getElem.2 ⟨e, by simpa using hlt, by simp⟩
  have h3 : (X ++ Y).drop (e + 1) = X.drop (e + 1) ++ Y :=
    List.drop_append_of_le_length (by omega)
  unfold text_handler_step
  simp only [h2, h3]

theorem text_handler_step_length {σ : Type} (L M : Nat)
    (route : σ → Request → σ × code × Option (List Int) × Nat)
    (st : HandlerState σ) (e : Nat) (h : memchr st.cdata.buffer 10 = some e) :
    (text_handler_step L M route st e).cdata.buffer.length + (e + 1) =
      st.cdata.buffer.length := by
  have hlt := memchr_lt _ 10 e h
  unfold text_handler_step
  simp only [List.length_drop]
  omega

/-- The loop of `text_handler` ends within as many rounds as the buffer has bytes, and
more rounds do not change what it gives. -/
theorem text_handler_loop_fuel {σ : Type} (L M : Nat)
    (route : σ → Request → σ × code × Option (List Int) × Nat)
    (f g : Nat) (st : HandlerState σ)
    (hf : st.cdata.buffer.length ≤ f) (hg : st.cdata.buffer.length ≤ g) :
    text_handler_loop L M route f st = text_handler_loop L M route g st ∧
    (text_handler_loop L M route f st).isSome = true := by
  induction f generalizing g st with
  | zero =>
    have hnil : st.cdata.buffer = [] := List.length_eq_zero.1 (Nat.le_zero.1 hf)
    have hm : memchr st.cdata.buffer 10 = none := by rw [hnil]; rfl
    cases g <;> simp [text_handler_loop, hm]
  | succ f ih =>
    cases hm : memchr st.cdata.buffer 10 with
    | none => cases g <;> simp [text_handler_loop, hm]
    | some e =>
      have hlen := text_handler_step_length L M route st e hm
      cases g with
      | zero => omega
      | succ g =>
        simp only [text_handler_loop, hm]
        exact ih g _ (by omega) (by omega)

theorem text_handler_loop_none {σ : Type} (L M : Nat)
    (route : σ → Request → σ × code × Option (List Int) × Nat)
    (f : Nat) (st : HandlerState σ) (h : memchr st.cdata.buffer 10 = none) :
    text_handler_loop L M route f st = some st := by
  cases f <;> simp [text_handler_loop, h]

/-- Running `text_handler` on a buffer followed by more bytes is running it on the buffer
and then again once the bytes have been appended to what it left. -/
theorem text_handler_append {σ : Type} (L M : Nat)
    (route : σ → Request → σ × code × Option (List Int) × Nat)
    (n : Nat) (st : HandlerState σ) (X Y : List Int) (hn : X.length ≤ n) :
    ∃ s1 s2, text_handler L M route { st with cdata := { buffer := X } } = some s1 ∧
      text_handler L M route { s1 with cdata := { buffer := s1.cdata.buffer ++ Y } } = some s2 ∧
      text_handler L M route { st with cdata := { buffer := X ++ Y } } = some s2 := by
  induction n generalizing st X with
  | zero =>
    have hnil : X = [] := List.length_eq_zero.1 (Nat.le_zero.1 hn)
    subst hnil
    refine ⟨{ st with cdata := { buffer := [] } }, ?_⟩
    have h := (text_handler_loop_fuel L M route Y.length Y.length
      { st with cdata := { buffer := [] ++ Y } } (by simp) (by simp)).2
    obtain ⟨s2, hs2⟩ := Option.isSome_iff_exists.1 h
    refine ⟨s2, rfl, ?_, ?_⟩
    · simpa [text_handler, ClientData.current_idx] using hs2
    · simpa [text_handler, ClientData.current_idx] using hs2
  | succ n ih =>
    cases hm : memchr X 10 with
    | none =>
      refine ⟨{ st with cdata := { buffer := X } }, ?_⟩
      have h := (text_handler_loop_fuel L M route (X ++ Y).length (X ++ Y).length
        { st with cdata := { buffer := X ++ Y } } (by simp) (by simp)).2
      obtain ⟨s2, hs2⟩ := Option.isSome_iff_exists.1 h
      exact ⟨s2, text_handler_loop_none L M route _ _ hm, hs2, hs2⟩
    | some e =>
      have hlt := memchr_lt X 10 e hm
      have hm2 := memchr_append X Y 10 e hm
      have hstep := text_handler_step_append L M route st X Y e hm
      have hlen := text_handler_step_length L M route
        { st with cdata := { buffer := X } } e hm
      obtain ⟨s1, s2, h1, h2, h3⟩ := ih
        (text_handler_step L M route { st with cdata := { buffer := X } } e)
        (text_handler_step L M route { st with cdata := { buffer := X } } e).cdata.buffer
        (by simp only at hlen; omega)
      refine ⟨s1, s2, ?_, h2, ?_⟩
      · rw [← h1]
        unfold text_handler
        obtain ⟨k, hk⟩ : ∃ k, X.length = k + 1 := ⟨X.length - 1, by omega⟩
        simp only [ClientData.current_idx, hk, text_handler_loop, hm]
        exact (text_handler_loop_fuel L M route _ _ _ (by simp only at hlen ⊢; omega)
          (by simp)).1
      · rw [← h3]
        unfold text_handler
        obtain ⟨k, hk⟩ : ∃ k, (X ++ Y).length = k + 1 :=
          ⟨(X ++ Y).length - 1, by simp; omega⟩
        simp only [ClientData.current_idx, hk, text_handler_loop, hm2, hstep]
        exact (text_handler_loop_fuel L M route _ _ _
          (by simp only [List.length_append] at hk ⊢; simp only at hlen; omega)
          (by simp)).1

/-- C10. Framing does not depend on how the bytes arrive: from any state, running
`text_handler` after the bytes `a` have been appended to the buffer and again after `b`
has been appended ends in a state `s2`, and running it once after `a` followed by `b` has
been appended ends in the same state: the same requests passed to the router, the same
bytes written to the client, the same cache, and the same buffer and `current_idx`. -/
theorem text_handler_split {σ : Type} (TEXT_LIMIT_SIZE TEXT_MAX_TOKS : Nat)
    (make_cache_request : σ → Request → σ × code × Option (List Int) × Nat)
    (st : HandlerState σ) (a b : List Int) :
    ∃ s1 s2,
      text_handler TEXT_LIMIT_SIZE TEXT_MAX_TOKS make_cache_request
        { st with cdata := { buffer := st.cdata.buffer ++ a } } = some s1 ∧
      text_handler TEXT_LIMIT_SIZE TEXT_MAX_TOKS make_cache_request
        { s1 with cdata := { buffer := s1.cdata.buffer ++ b } } = some s2 ∧
      text_handler TEXT_LIMIT_SIZE TEXT_MAX_TOKS make_cache_request
        { st with cdata := { buffer := st.cdata.buffer ++ a ++ b } } = some s2 :=
  text_handler_append TEXT_LIMIT_SIZE TEXT_MAX_TOKS make_cache_request _ st
    (st.cdata.buffer ++ a) b (Nat.le_refl _)

/-! ## Hashing: claims -/

/-- Reading one more byte is one more round of the accumulator. -/
theorem hash_bytes_snoc (bs : List Int) (c : Int) :
    hash_bytes (bs ++ [c]) = hash_step (hash_bytes bs) c := by
  unfold hash_bytes
  rw [List.foldl_append]; rfl

theorem hash_poly_snoc (bs : List Int) (c : Int) :
    hash_poly (bs ++ [c]) = c + 31 * hash_poly bs := by
  unfold hash_poly
  rw [List.length_append, List.length_singleton, List.range_succ, List.map_append,
    List.sum_append]
  have h1 : (List.map (fun i => (bs ++ [c]).getD i 0 * 31 ^ (bs.length + 1 - 1 - i))
      (List.range bs.length)) =
      (List.map (fun i => bs.getD i 0 * 31 ^ (bs.length - 1 - i))
      (List.range bs.length)).map (fun x => 31 * x) := by
    rw [List.map_map]
    apply List.map_congr_left
    intro i hi
    have hi' : i < bs.length := List.mem_range.1 hi
    have e1 : (bs ++ [c]).getD i 0 = bs.getD i 0 := by
      simp [List.getD_eq_getElem?_getD, List.getElem?_append_left hi']
    have e2 : bs.length + 1 - 1 - i = (bs.length - 1 - i) + 1 := by omega
    simp only [Function.comp, e1, e2, pow_succ]
    ring
  rw [h1, List.sum_map_mul_left]
  have h2 : (List.map (fun i => (bs ++ [c]).getD i 0 * 31 ^ (bs.length + 1 - 1 - i))
      [bs.length]).sum = c := by
    simp [List.getD_eq_getElem?_getD]
  rw [h2, List.map_id']
  ring

theorem hash_bytes_eq_poly (bs : List Int) :
    (hash_bytes bs : Int) = hash_poly bs % 2 ^ 64 := by
  induction bs using List.reverseRecOn with
  | nil => rfl
  | append_singleton bs c ih =>
    rw [hash_bytes_snoc, hash_poly_snoc]
    unfold hash_step
    rw [Int.toNat_of_nonneg (Int.emod_nonneg _ (by norm_num)), ih]
    rw [Int.add_emod, Int.mul_emod, Int.emod_emod_of_dvd _ (dvd_refl _), ← Int.mul_emod,
      ← Int.add_emod]

/-- C15. Hash closed form: `hash_bytes` of the empty sequence is 0, each further byte `c`
turns the accumulator `h` into `c + 31 * h` reduced modulo `2 ^ 64`, and so the hash of
`b_0 … b_{n-1}` is the sum over `i` of `b_i * 31 ^ (n - 1 - i)` reduced modulo `2 ^ 64`,
each `b_i` being the value of the `char` read. -/
theorem hash_bytes_closed_form (bs : List Int) (c : Int) :
    hash_bytes [] = 0 ∧
    (hash_bytes (bs ++ [c]) : Int) = (c + 31 * (hash_bytes bs : Int)) % 2 ^ 64 ∧
    (hash_bytes bs : Int) = hash_poly bs % 2 ^ 64 ∧
    hash_bytes bs < 2 ^ 64 := by
  refine ⟨rfl, ?_, hash_bytes_eq_poly bs, ?_⟩
  · rw [hash_bytes_snoc]
    unfold hash_step
    exact Int.toNat_of_nonneg (Int.emod_nonneg _ (by norm_num))
  · have h := hash_bytes_eq_poly bs
    have h2 : hash_poly bs % 2 ^ 64 < 2 ^ 64 := Int.emod_lt_of_pos _ (by norm_num)
    omega

/-! ## The text protocol: responses -/

/-- The line written when the guard of `answer_text_client` lets the response through:
the 64-bit sum does not wrap and is within the limit. -/
theorem answer_text_client_pass (L : Nat) (res : code) (data : Option (List Int))
    (len : Nat) (h : len + (code_str res).length ≤ L)
    (hw : len + (code_str res).length < 2 ^ 64) :
    answer_text_client L res data len =
      code_str res ++ (match data with
        | some d => 32 :: d.take len
        | none => []) ++ [10] := by
  unfold answer_text_client
  simp only [Nat.mod_eq_of_lt hw, if_neg (Nat.not_lt.2 h)]

/-- The oversize literal is written when the 64-bit sum does not wrap and is above the
limit. -/
theorem answer_text_client_big (L : Nat) (res : code) (data : Option (List Int))
    (len : Nat) (h : L < len + (code_str res).length)
    (hw : len + (code_str res).length < 2 ^ 64) :
    answer_text_client L res data len = [69, 66, 73, 71, 10] := by
  unfold answer_text_client
  simp only [Nat.mod_eq_of_lt hw, gt_iff_lt, if_pos h]

/-- What `answer_text_client` writes when the 64-bit sum of its guard wraps around: the
guard compares the wrapped sum, `len + strlen(op_string) - 2 ^ 64`, with the limit. -/
theorem answer_text_client_wrapped (L : Nat) (res : code) (data : Option (List Int))
    (len : Nat) (hlen : len < 2 ^ 64) (hw : 2 ^ 64 ≤ len + (code_str res).length)
    (h : len + (code_str res).length - 2 ^ 64 ≤ L) :
    answer_text_client L res data len =
      code_str res ++ (match data with
        | some d => 32 :: d.take len
        | none => []) ++ [10] := by
  have hs : (code_str res).length < 2 ^ 64 := by cases res <;> decide
  have hmod : (len + (code_str res).length) % 2 ^ 64 =
      len + (code_str res).length - 2 ^ 64 := by
    rw [Nat.mod_eq_sub_mod hw, Nat.mod_eq_of_lt (by omega)]
  unfold answer_text_client
  simp only [hmod, if_neg (Nat.not_lt.2 h)]

/-- C12, counterexample. With `TEXT_LIMIT_SIZE = 2048`, the result code `OK`, no payload
and `len = 2 ^ 64 - 1` (the largest `uint64_t`), `len` plus the length of `"OK"` exceeds
the limit, but the 64-bit sum wraps to 1, the guard is false and `answer_text_client`
writes `"OK\n"`, not `"EBIG\n"`. -/
theorem answer_text_client_wrap_counterexample :
    2 ^ 64 - 1 < 2 ^ 64 ∧
    2048 < (2 ^ 64 - 1) + (code_str code.OK).length ∧
    ((2 ^ 64 - 1) + (code_str code.OK).length) % 2 ^ 64 = 1 ∧
    answer_text_client 2048 code.OK none (2 ^ 64 - 1) = [79, 75, 10] ∧
    answer_text_client 2048 code.OK none (2 ^ 64 - 1) ≠ [69, 66, 73, 71, 10] := by
  have h := answer_text_client_wrapped 2048 code.OK none (2 ^ 64 - 1) (by decide)
    (by decide) (by decide)
  refine ⟨by decide, by decide, by decide, ?_, ?_⟩
  · rw [h]; rfl
  · rw [h]; decide

/-- C12, amended. Response serialization: when `len` plus the length of the string of the
result code is below `2 ^ 64` (the 64-bit sum of the guard does not wrap, as for every
length `text_handler` passes), `answer_text_client` writes exactly the 5 bytes `"EBIG\n"`
when that sum exceeds `TEXT_LIMIT_SIZE`; otherwise it writes the string of the result
code, then, exactly when a payload is present, one space and the `len` bytes of the
payload, all of them, then one `'\n'`. -/
theorem answer_text_client_serialization (TEXT_LIMIT_SIZE : Nat) (res : code)
    (data : Option (List Int)) (d : List Int) (len : Nat)
    (hw : len + (code_str res).length < 2 ^ 64) :
    (TEXT_LIMIT_SIZE < len + (code_str res).length →
      answer_text_client TEXT_LIMIT_SIZE res data len = [69, 66, 73, 71, 10]) ∧
    (len + (code_str res).length ≤ TEXT_LIMIT_SIZE →
      answer_text_client TEXT_LIMIT_SIZE res none len = code_str res ++ [10]) ∧
    (len + (code_str res).length ≤ TEXT_LIMIT_SIZE → d.length = len →
      answer_text_client TEXT_LIMIT_SIZE res (some d) len =
        code_str res ++ [32] ++ d ++ [10]) := by
  refine ⟨?_, ?_, ?_⟩
  · intro h
    exact answer_text_client_big _ _ _ _ h hw
  · intro h
    rw [answer_text_client_pass _ _ _ _ h hw]
    simp
  · intro h hd
    rw [answer_text_client_pass _ _ _ _ h hw]
    simp [← hd]

theorem answer_text_client_serialization_witness :
    (7 + (code_str code.OK).length < 2 ^ 64 ∧ 8 < 7 + (code_str code.OK).length ∧
      0 + (code_str code.ENOTFOUND).length < 2 ^ 64 ∧
      0 + (code_str code.ENOTFOUND).length ≤ 2048 ∧
      2 + (code_str code.OK).length < 2 ^ 64 ∧ 2 + (code_str code.OK).length ≤ 2048 ∧
      ([118, 49] : List Int).length = 2) ∧
    answer_text_client 8 code.OK (some [1, 2, 3, 4, 5, 6, 7]) 7 = [69, 66, 73, 71, 10] ∧
    answer_text_client 2048 code.ENOTFOUND none 0 = code_str code.ENOTFOUND ++ [10] ∧
    answer_text_client 2048 code.OK (some [118, 49]) 2 =
      code_str code.OK ++ [32] ++ [118, 49] ++ [10] :=
  ⟨⟨by decide, by decide, by decide, by decide, by decide, by decide, by decide⟩,
    (answer_text_client_serialization 8 code.OK (some [1, 2, 3, 4, 5, 6, 7]) [] 7
      (by decide)).1 (by decide),
    (answer_text_client_serialization 2048 code.ENOTFOUND none [] 0 (by decide)).2.1
      (by decide),
    (answer_text_client_serialization 2048 code.OK none [118, 49] 2 (by decide)).2.2
      (by decide) (by decide)⟩

/-- The length of the line written when the guard of `answer_text_client` lets a response
with a payload of `len` bytes through: two bytes more than what the guard compares with
`TEXT_LIMIT_SIZE`. -/
theorem answer_text_client_length (L : Nat) (res : code) (d : List Int) (len : Nat)
    (h : len + (code_str res).length ≤ L) (hw : len + (code_str res).length < 2 ^ 64)
    (hd : d.length = len) :
    (answer_text_client L res (some d) len).length = len + (code_str res).length + 2 := by
  rw [answer_text_client_pass _ _ _ _ h hw]
  simp [← hd]
  omega

/-- C18, the code at a failing input. With `TEXT_LIMIT_SIZE = 2048`, the result code `OK`
and a payload of 2046 bytes the guard `len + strlen(op_string) > TEXT_LIMIT_SIZE` is false
(2048 is not above 2048), the oversize literal is not written, and the line written is
2050 bytes long. -/
theorem answer_text_client_over_limit :
    ¬ (2046 + (code_str code.OK).length > 2048) ∧
    answer_text_client 2048 code.OK (some (List.replicate 2046 97)) 2046
      = code_str code.OK ++ [32] ++ List.replicate 2046 97 ++ [10] ∧
    answer_text_client 2048 code.OK (some (List.replicate 2046 97)) 2046
      ≠ [69, 66, 73, 71, 10] ∧
    (answer_text_client 2048 code.OK (some (List.replicate 2046 97)) 2046).length = 2050 ∧
    ¬ ((answer_text_client 2048 code.OK (some (List.replicate 2046 97)) 2046).length
      ≤ 2048) := by
  have hg : 2046 + (code_str code.OK).length ≤ 2048 := by decide
  have hw : 2046 + (code_str code.OK).length < 2 ^ 64 := by decide
  have hr : (List.replicate 2046 (97 : Int)).length = 2046 := List.length_replicate _ _
  have hl := answer_text_client_length 2048 code.OK (List.replicate 2046 97) 2046 hg hw hr
  have he : answer_text_client 2048 code.OK (some (List.replicate 2046 97)) 2046
      = code_str code.OK ++ [32] ++ List.replicate 2046 97 ++ [10] := by
    rw [answer_text_client_pass _ _ _ _ hg hw]
    have ht : (List.replicate 2046 (97 : Int)).take 2046 = List.replicate 2046 97 := by
      rw [List.take_of_length_le (Nat.le_of_eq hr)]
    simp only [ht, List.append_assoc, List.singleton_append]
  have hlen : (answer_text_client 2048 code.OK (some (List.replicate 2046 97)) 2046).length
      = 2050 := by rw [hl]; rfl
  refine ⟨by decide, he, ?_, hlen, by rw [hlen]; decide⟩
  intro h
  rw [h] at hlen
  simp at hlen

/-! ## The cache engine: invariants -/

theorem cache_del_size (c : Cache) (mode : Int) (key : List Int) :
    (cache_del c mode key).2.size = c.size := by
  cases hs : list_search (c.bucket (NROW c key)) mode key with
  | none => rw [cache_del_miss c mode key hs]
  | some node => rw [cache_del_hit c mode key node hs]

theorem cache_apply_size (c : Cache) (op : CacheOp) : (cache_apply c op).size = c.size := by
  cases op with
  | get mode key => exact (cache_get_buckets c mode key).2
  | put mode key value => exact cache_put_size c mode key value
  | del mode key => exact cache_del_size c mode key

theorem WF_cache_apply (c : Cache) (op : CacheOp) (w : c.WF) : (cache_apply c op).WF := by
  cases op with
  | get mode key => exact WF_cache_get c mode key w
  | put mode key value => exact WF_cache_put c mode key value w
  | del mode key => exact WF_cache_del c mode key w

/-- Every sequence of calls keeps a well-formed cache well-formed, with its size. -/
theorem WF_cache_run (c : Cache) (ops : List CacheOp) (w : c.WF) :
    (cache_run c ops).WF ∧ (cache_run c ops).size = c.size := by
  induction ops generalizing c with
  | nil => exact ⟨w, rfl⟩
  | cons op ops ih =>
    have h := ih (cache_apply c op) (WF_cache_apply c op w)
    exact ⟨h.1, h.2.trans (cache_apply_size c op)⟩

/-- In a well-formed cache at most one node of the table matches a given `(mode, key)`. -/
theorem Cache.WF.countP_le_one {c : Cache} (w : c.WF) (mode : Int) (key : List Int) :
    c.nodes.countP (node_matches mode key) ≤ 1 := by
  cases hs : list_search (c.bucket (NROW c key)) mode key with
  | some n => exact Nat.le_of_eq (w.countP_of_search hs)
  | none =>
    have : c.nodes.countP (node_matches mode key) = 0 := by
      rw [List.countP_eq_zero]
      intro a ha hm
      exact List.find?_eq_none.1 hs a (w.mem_slot ha hm) hm
    omega

/-- C16. Unique-key invariant: in the cache reached from the empty cache of `cache_init`
(with `0 < size`, and `size` fitting the 32-bit field) by any sequence of `cache_get`,
`cache_put` and `cache_del` calls, at most one chain node of the whole table matches any
given `(mode, key)`, and every entry stored in chain `i` has
`hash_bytes(key) mod size = i`. -/
theorem cache_unique_key (size nregions : Nat) (ops : List CacheOp)
    (h0 : 0 < size) (h32 : size < 2 ^ 32) :
    (∀ mode key, (cache_run (cache_init size nregions) ops).nodes.countP
      (node_matches mode key) ≤ 1) ∧
    (∀ i, ∀ n ∈ (cache_run (cache_init size nregions) ops).bucket i,
      hash_bytes n.data.key % size = i) := by
  obtain ⟨w, hsz⟩ := WF_cache_run _ ops (WF_cache_init size nregions h0 h32)
  have hsize : (cache_run (cache_init size nregions) ops).size = size := by
    rw [hsz]; exact Nat.mod_eq_of_lt h32
  refine ⟨fun mode key => w.countP_le_one mode key, ?_⟩
  intro i n hn
  have := w.slot i n hn
  unfold NROW at this
  rw [hsize] at this
  exact this

theorem cache_unique_key_witness :
    ((0 : Nat) < 4 ∧ (4 : Nat) < 2 ^ 32) ∧
    (∀ mode key, (cache_run (cache_init 4 2)
      [CacheOp.put 1 [97] [120], CacheOp.put 2 [97] [121], CacheOp.get 1 [97],
        CacheOp.put 1 [101] [122], CacheOp.del 2 [97], CacheOp.put 1 [97] [123]]).nodes.countP
      (node_matches mode key) ≤ 1) ∧
    (∀ i, ∀ n ∈ (cache_run (cache_init 4 2)
      [CacheOp.put 1 [97] [120], CacheOp.put 2 [97] [121], CacheOp.get 1 [97],
        CacheOp.put 1 [101] [122], CacheOp.del 2 [97], CacheOp.put 1 [97] [123]]).bucket i,
      hash_bytes n.data.key % 4 = i) :=
  ⟨⟨by decide, by decide⟩, cache_unique_key 4 2 _ (by decide) (by decide)⟩

/-- C17. Entry/LRU one-to-one invariant: in the cache reached from the empty cache of
`cache_init` by any sequence of `cache_get`, `cache_put` and `cache_del` calls, every
chain node of the table is bound to exactly one handle of the LRU queue, every handle of
the queue is bound to exactly one chain node of the table, which sits in the slot the
handle records, no handle occurs twice in the queue, and the queue is as long as the
table has nodes. -/
theorem cache_entry_lru_bijection (size nregions : Nat) (ops : List CacheOp)
    (h0 : 0 < size) (h32 : size < 2 ^ 32) :
    (∀ n ∈ (cache_run (cache_init size nregions) ops).nodes,
      ∃! h, h ∈ (cache_run (cache_init size nregions) ops).queue ∧
        h.addr = n.lru_priority ∧ h.data_node = n.addr) ∧
    (∀ h ∈ (cache_run (cache_init size nregions) ops).queue,
      ∃! n, n ∈ (cache_run (cache_init size nregions) ops).nodes ∧
        n.addr = h.data_node ∧ n.lru_priority = h.addr) ∧
    (∀ h ∈ (cache_run (cache_init size nregions) ops).queue,
      ∀ n ∈ (cache_run (cache_init size nregions) ops).nodes,
        n.addr = h.data_node → n ∈ (cache_run (cache_init size nregions) ops).bucket h.idx) ∧
    (cache_run (cache_init size nregions) ops).queue.Nodup ∧
    (cache_run (cache_init size nregions) ops).queue.length =
      (cache_run (cache_init size nregions) ops).nodes.length := by
  obtain ⟨w, -⟩ := WF_cache_run _ ops (WF_cache_init size nregions h0 h32)
  generalize cache_run (cache_init size nregions) ops = c at w
  have huniq : ∀ n1 ∈ c.nodes, ∀ n2 ∈ c.nodes, n1.addr = n2.addr → n1 = n2 := by
    intro n1 h1 n2 h2 e
    obtain ⟨i, hi⟩ := (mem_nodes_iff c n1).1 h1
    obtain ⟨j, hj⟩ := (mem_nodes_iff c n2).1 h2
    have hij := w.cross_addr i j n1 hi n2 hj e
    subst hij
    exact List.inj_on_of_nodup_map (w.chain_addr i) hi hj e
  refine ⟨?_, ?_, ?_, List.Nodup.of_map _ w.queue_addr, w.count⟩
  · intro n hn
    obtain ⟨i, hi⟩ := (mem_nodes_iff c n).1 hn
    refine ⟨LRUNode.mk n.lru_priority i n.addr, ⟨w.bound i n hi, rfl, rfl⟩, ?_⟩
    rintro h ⟨hh, ha, -⟩
    exact List.inj_on_of_nodup_map w.queue_addr hh (w.bound i n hi) ha
  · intro h hh
    obtain ⟨n, hn, e1, e2⟩ := w.back h hh
    refine ⟨n, ⟨(mem_nodes_iff c n).2 ⟨_, hn⟩, e1, e2⟩, ?_⟩
    rintro m ⟨hm, ha, -⟩
    exact huniq m hm n ((mem_nodes_iff c n).2 ⟨_, hn⟩) (ha.trans e1.symm)
  · intro h hh n hn ha
    obtain ⟨m, hm, e1, -⟩ := w.back h hh
    have := huniq n hn m ((mem_nodes_iff c m).2 ⟨_, hm⟩) (ha.trans e1.symm)
    rw [this]; exact hm

theorem cache_entry_lru_bijection_witness :
    ((0 : Nat) < 4 ∧ (4 : Nat) < 2 ^ 32) ∧
    (∀ n ∈ (cache_run (cache_init 4 2) sample_ops).nodes,
      ∃! h, h ∈ (cache_run (cache_init 4 2) sample_ops).queue ∧
        h.addr = n.lru_priority ∧ h.data_node = n.addr) ∧
    (∀ h ∈ (cache_run (cache_init 4 2) sample_ops).queue,
      ∃! n, n ∈ (cache_run (cache_init 4 2) sample_ops).nodes ∧
        n.addr = h.data_node ∧ n.lru_priority = h.addr) ∧
    (∀ h ∈ (cache_run (cache_init 4 2) sample_ops).queue,
      ∀ n ∈ (cache_run (cache_init 4 2) sample_ops).nodes,
        n.addr = h.data_node → n ∈ (cache_run (cache_init 4 2) sample_ops).bucket h.idx) ∧
    (cache_run (cache_init 4 2) sample_ops).queue.Nodup ∧
    (cache_run (cache_init 4 2) sample_ops).queue.length =
      (cache_run (cache_init 4 2) sample_ops).nodes.length :=
  ⟨⟨by decide, by decide⟩,
    cache_entry_lru_bijection 4 2 sample_ops (by decide) (by decide)⟩

/-! ## The cache engine: frame -/

theorem find?_eraseP_other (l : List ListNode) (p q : ListNode → Bool)
    (h : ∀ x, p x = true → q x = false) :
    (l.eraseP p).find? q = l.find? q := by
  induction l with
  | nil => rfl
  | cons x xs ih =>
    by_cases hx : p x = true
    · simp [List.eraseP, hx, List.find?_cons, h x hx]
    · have hx' : p x = false := by simpa using hx
      simp only [List.eraseP_cons, hx', cond_false, List.find?_cons, ih]

/-- A `cache_del` on `(mode, key)` leaves the search for any other pair alone. -/
theorem cache_del_search_other (c : Cache) (mode mode' : Int) (key key' : List Int)
    (w : c.WF) (hne : ¬ (mode = mode' ∧ key = key')) :
    list_search ((cache_del c mode key).2.bucket (NROW c key')) mode' key' =
      list_search (c.bucket (NROW c key')) mode' key' := by
  have hidx : NROW c key < c.buckets.length := w.buckets_length ▸ NROW_lt c key w.size_pos
  cases hs : list_search (c.bucket (NROW c key)) mode key with
  | none => rw [cache_del_miss c mode key hs]
  | some node =>
    rw [cache_del_hit c mode key node hs]
    show list_search ((c.buckets.set (NROW c key) _).getD (NROW c key') []) mode' key' = _
    rw [bucket_set _ _ _ _ hidx]
    by_cases e : NROW c key' = NROW c key
    · rw [if_pos e, e]
      unfold list_search
      apply find?_eraseP_other
      intro x hx
      have h1 := (node_matches_iff mode key x).1 hx
      rw [← Bool.not_eq_true, node_matches_iff]
      rintro ⟨h2, h3⟩
      exact hne ⟨h1.1.symm.trans h2, h1.2.symm.trans h3⟩
    · rw [if_neg e]; rfl

/-- C20. Frame of put, delete and get: on a well-formed cache, for two different pairs
`(mode, K)` and `(mode', K')`, in the same slot or not, a `cache_put` or a `cache_del` on
`(mode, K)` leaves the code, the value bytes and the length that `cache_get(mode', K')`
returns unchanged; and a `cache_get` on any pair leaves what a later `cache_get` returns
unchanged. -/
theorem cache_frame (c : Cache) (mode mode' m1 : Int) (K K' k1 V : List Int)
    (w : c.WF) (hne : ¬ (mode = mode' ∧ K = K')) :
    ((cache_get (cache_put c mode K V).2 mode' K').res = (cache_get c mode' K').res ∧
      (cache_get (cache_put c mode K V).2 mode' K').val = (cache_get c mode' K').val ∧
      (cache_get (cache_put c mode K V).2 mode' K').vlen = (cache_get c mode' K').vlen) ∧
    ((cache_get (cache_del c mode K).2 mode' K').res = (cache_get c mode' K').res ∧
      (cache_get (cache_del c mode K).2 mode' K').val = (cache_get c mode' K').val ∧
      (cache_get (cache_del c mode K).2 mode' K').vlen = (cache_get c mode' K').vlen) ∧
    ((cache_get (cache_get c m1 k1).cache mode' K').res = (cache_get c mode' K').res ∧
      (cache_get (cache_get c m1 k1).cache mode' K').val = (cache_get c mode' K').val ∧
      (cache_get (cache_get c m1 k1).cache mode' K').vlen = (cache_get c mode' K').vlen) ∧
    ((cache_get (cache_get c m1 k1).cache m1 k1).res = (cache_get c m1 k1).res ∧
      (cache_get (cache_get c m1 k1).cache m1 k1).val = (cache_get c m1 k1).val) := by
  have lift : ∀ (c' : Cache) (m : Int) (k : List Int),
      list_search (c'.bucket (NROW c' k)) m k = list_search (c.bucket (NROW c k)) m k →
      (cache_get c' m k).res = (cache_get c m k).res ∧
      (cache_get c' m k).val = (cache_get c m k).val ∧
      (cache_get c' m k).vlen = (cache_get c m k).vlen := by
    intro c' m k h
    obtain ⟨h1, h2⟩ := cache_get_eq_of_search c c' m k h
    refine ⟨h1, h2, ?_⟩
    unfold GetResult.vlen
    rw [h2]
  have hget : ∀ (m : Int) (k : List Int),
      list_search ((cache_get c m1 k1).cache.bucket (NROW (cache_get c m1 k1).cache k)) m k =
        list_search (c.bucket (NROW c k)) m k := by
    intro m k
    obtain ⟨hb, hs⟩ := cache_get_buckets c m1 k1
    unfold Cache.bucket NROW
    rw [hb, hs]
  refine ⟨lift _ _ _ ?_, lift _ _ _ ?_, lift _ _ _ (hget _ _), ?_⟩
  · have hrow : NROW (cache_put c mode K V).2 K' = NROW c K' := by
      unfold NROW; rw [cache_put_size]
    rw [hrow]
    exact cache_put_search_other c mode mode' K K' V w hne
  · have hrow : NROW (cache_del c mode K).2 K' = NROW c K' := by
      unfold NROW; rw [cache_del_size]
    rw [hrow]
    exact cache_del_search_other c mode mode' K K' w hne
  · have := lift _ _ _ (hget m1 k1)
    exact ⟨this.1, this.2.1⟩

theorem cache_frame_witness :
    ((cache_run (cache_init 4 2) sample_ops).WF ∧
      ¬ ((1 : Int) = 1 ∧ ([97] : List Int) = [101])) ∧
    ((cache_get (cache_put (cache_run (cache_init 4 2) sample_ops) 1 [97] [55]).2 1 [101]).res
        = (cache_get (cache_run (cache_init 4 2) sample_ops) 1 [101]).res ∧
      (cache_get (cache_put (cache_run (cache_init 4 2) sample_ops) 1 [97] [55]).2 1 [101]).val
        = (cache_get (cache_run (cache_init 4 2) sample_ops) 1 [101]).val ∧
      (cache_get (cache_put (cache_run (cache_init 4 2) sample_ops) 1 [97] [55]).2 1 [101]).vlen
        = (cache_get (cache_run (cache_init 4 2) sample_ops) 1 [101]).vlen) ∧
    ((cache_get (cache_del (cache_run (cache_init 4 2) sample_ops) 1 [97]).2 1 [101]).res
        = (cache_get (cache_run (cache_init 4 2) sample_ops) 1 [101]).res ∧
      (cache_get (cache_del (cache_run (cache_init 4 2) sample_ops) 1 [97]).2 1 [101]).val
        = (cache_get (cache_run (cache_init 4 2) sample_ops) 1 [101]).val ∧
      (cache_get (cache_del (cache_run (cache_init 4 2) sample_ops) 1 [97]).2 1 [101]).vlen
        = (cache_get (cache_run (cache_init 4 2) sample_ops) 1 [101]).vlen) ∧
    ((cache_get (cache_get (cache_run (cache_init 4 2) sample_ops) 1 [98]).cache 1 [101]).res
        = (cache_get (cache_run (cache_init 4 2) sample_ops) 1 [101]).res ∧
      (cache_get (cache_get (cache_run (cache_init 4 2) sample_ops) 1 [98]).cache 1 [101]).val
        = (cache_get (cache_run (cache_init 4 2) sample_ops) 1 [101]).val ∧
      (cache_get (cache_get (cache_run (cache_init 4 2) sample_ops) 1 [98]).cache 1 [101]).vlen
        = (cache_get (cache_run (cache_init 4 2) sample_ops) 1 [101]).vlen) ∧
    ((cache_get (cache_get (cache_run (cache_init 4 2) sample_ops) 1 [98]).cache 1 [98]).res
        = (cache_get (cache_run (cache_init 4 2) sample_ops) 1 [98]).res ∧
      (cache_get (cache_get (cache_run (cache_init 4 2) sample_ops) 1 [98]).cache 1 [98]).val
        = (cache_get (cache_run (cache_init 4 2) sample_ops) 1 [98]).val) :=
  ⟨⟨(WF_cache_run _ sample_ops (WF_cache_init 4 2 (by decide) (by decide))).1, by decide⟩,
    cache_frame (cache_run (cache_init 4 2) sample_ops) 1 1 1 [97] [101] [98] [55]
      (WF_cache_run _ sample_ops (WF_cache_init 4 2 (by decide) (by decide))).1 (by decide)⟩

/-! ## Eviction hook: claim -/

/-- What `cache_try_dismiss` does on each outcome of the lock attempt. -/
theorem cache_try_dismiss_cases (c : Cache) (ret : Int) (idx data_node : Nat) :
    (cache_try_dismiss c 0 idx data_node =
      { ret := 0, cache := c, region := NREGION c idx, lock_held := true,
        unlock_called := false }) ∧
    (ret ≠ 0 → (cache_try_dismiss c ret idx data_node).ret = 1 ∧
      (cache_try_dismiss c ret idx data_node).unlock_called = true ∧
      (cache_try_dismiss c ret idx data_node).lock_held = false ∧
      ∀ n ∈ (cache_try_dismiss c ret idx data_node).cache.nodes, n.addr ≠ data_node) := by
  refine ⟨rfl, fun h => ?_⟩
  unfold cache_try_dismiss
  rw [if_neg h]
  refine ⟨rfl, rfl, rfl, ?_⟩
  intro n hn
  unfold Cache.nodes at hn
  simp only [List.mem_flatten, List.mem_map] at hn
  obtain ⟨l, ⟨l0, -, rfl⟩, hnl⟩ := hn
  unfold list_remove at hnl
  simpa using (List.mem_filter.1 hnl).2

/-- C13, the code at a failing input. On the cache `sample_cache`, for the node at
address 1 (key `"a"`, slot 1): when the lock attempt succeeds (`pthread_rwlock_trywrlock`
returns 0) `cache_try_dismiss` returns 0, leaves the node in its chain and returns with
the lock held; when the row is busy (`EBUSY`) it unlinks the node, calls `UNLOCK_ROW` on a
lock it does not hold and returns 1. -/
theorem cache_try_dismiss_inverted :
    NROW sample_cache [97] = 1 ∧
    (∃ n ∈ sample_cache.bucket 1, n.addr = 1) ∧
    (cache_try_dismiss sample_cache 0 1 1).ret = 0 ∧
    (cache_try_dismiss sample_cache 0 1 1).cache = sample_cache ∧
    (cache_try_dismiss sample_cache 0 1 1).lock_held = true ∧
    (cache_try_dismiss sample_cache 0 1 1).unlock_called = false ∧
    (cache_try_dismiss sample_cache 16 1 1).ret = 1 ∧
    (cache_try_dismiss sample_cache 16 1 1).cache.bucket 1 = [] ∧
    (cache_try_dismiss sample_cache 16 1 1).cache ≠ sample_cache ∧
    (cache_try_dismiss sample_cache 16 1 1).lock_held = false ∧
    (cache_try_dismiss sample_cache 16 1 1).unlock_called = true := by
  decide

/-! ## Order of the steps of a deletion: claim -/

/-- C19, counterexample. Deleting the stored key `"a"` from `sample_cache` runs the six
steps in the order lock, detach chain node, detach LRU handle, unlock, free LRU handle,
free chain node: the LRU handle is detached (position 2) before the unlock (position 3),
while the region lock is still held, not after its release. -/
theorem cache_del_steps_counterexample :
    (cache_del sample_cache 1 [97]).1 = code.OK ∧
    cache_del_steps sample_cache 1 [97] =
      [DelStep.lock_region 1, DelStep.detach_chain_node, DelStep.detach_lru_handle,
        DelStep.unlock_region 1, DelStep.free_lru_handle, DelStep.free_chain_node] ∧
    (cache_del_steps sample_cache 1 [97]).indexOf DelStep.detach_lru_handle = 2 ∧
    (cache_del_steps sample_cache 1 [97]).indexOf (DelStep.unlock_region 1) = 3 ∧
    lock_held_at (cache_del_steps sample_cache 1 [97]) 2 = true := by
  decide

/-- C19, amended. On the hit path of `cache_del` the steps are, in this order: lock the
region, detach the chain node, detach the LRU handle, unlock the region, free the LRU
handle, free the chain node. The chain node and the LRU handle are both detached while
the region lock is held, and both are freed after the lock has been released. -/
theorem cache_del_steps_order (c : Cache) (mode : Int) (key : List Int)
    (hit : (cache_del c mode key).1 = code.OK) :
    cache_del_steps c mode key =
      [DelStep.lock_region (NREGION c (NROW c key)), DelStep.detach_chain_node,
        DelStep.detach_lru_handle, DelStep.unlock_region (NREGION c (NROW c key)),
        DelStep.free_lru_handle, DelStep.free_chain_node] ∧
    lock_held_at (cache_del_steps c mode key) 1 = true ∧
    lock_held_at (cache_del_steps c mode key) 2 = true ∧
    lock_held_at (cache_del_steps c mode key) 4 = false ∧
    lock_held_at (cache_del_steps c mode key) 5 = false := by
  cases hs : list_search (c.bucket (NROW c key)) mode key with
  | none =>
    rw [cache_del_miss c mode key hs] at hit
    exact absurd hit (by simp)
  | some node =>
    have ht : cache_del_steps c mode key =
        [DelStep.lock_region (NREGION c (NROW c key)), DelStep.detach_chain_node,
          DelStep.detach_lru_handle, DelStep.unlock_region (NREGION c (NROW c key)),
          DelStep.free_lru_handle, DelStep.free_chain_node] := by
      unfold list_search at hs
      unfold cache_del_steps list_search_and_remove
      simp only [hs]
    rw [ht]
    exact ⟨rfl, rfl, rfl, rfl, rfl⟩

theorem cache_del_steps_order_witness :
    (cache_del sample_cache 1 [98]).1 = code.OK ∧
    (cache_del_steps sample_cache 1 [98] =
      [DelStep.lock_region (NREGION sample_cache (NROW sample_cache [98])),
        DelStep.detach_chain_node, DelStep.detach_lru_handle,
        DelStep.unlock_region (NREGION sample_cache (NROW sample_cache [98])),
        DelStep.free_lru_handle, DelStep.free_chain_node] ∧
    lock_held_at (cache_del_steps sample_cache 1 [98]) 1 = true ∧
    lock_held_at (cache_del_steps sample_cache 1 [98]) 2 = true ∧
    lock_held_at (cache_del_steps sample_cache 1 [98]) 4 = false ∧
    lock_held_at (cache_del_steps sample_cache 1 [98]) 5 = false) :=
  ⟨by decide, cache_del_steps_order sample_cache 1 [98] (by decide)⟩

/-! ## The text protocol: lines -/

theorem memchr_none_iff (X : List Int) (ch : Int) : memchr X ch = none ↔ ch ∉ X := by
  induction X with
  | nil => simp [memchr]
  | cons x xs ih =>
    unfold memchr
    by_cases hx : x = ch
    · simp [hx]
    · simp only [if_neg hx, Option.map_eq_none', ih, List.mem_cons, not_or]
      exact ⟨fun h => ⟨fun e => hx e.symm, h⟩, fun h => h.2⟩

theorem split_lines_cons (b : Int) (bs : List Int) :
    split_lines (b :: bs) =
      if b = 10 then ([] :: (split_lines bs).1, (split_lines bs).2)
      else
        match (split_lines bs).1 with
        | [] => ([], b :: (split_lines bs).2)
        | l :: ls => ((b :: l) :: ls, (split_lines bs).2) := by
  rw [split_lines]

theorem split_lines_of_none (X : List Int) (h : memchr X 10 = none) :
    split_lines X = ([], X) := by
  induction X with
  | nil => rfl
  | cons x xs ih =>
    unfold memchr at h
    by_cases hx : x = 10
    · simp [hx] at h
    · simp only [if_neg hx, Option.map_eq_none'] at h
      rw [split_lines_cons, if_neg hx, ih h]

theorem split_lines_of_some (X : List Int) (e : Nat) (h : memchr X 10 = some e) :
    split_lines X =
      (X.take e :: (split_lines (X.drop (e + 1))).1, (split_lines (X.drop (e + 1))).2) := by
  induction X generalizing e with
  | nil => simp [memchr] at h
  | cons x xs ih =>
    unfold memchr at h
    by_cases hx : x = 10
    · simp only [if_pos hx, Option.some.injEq] at h
      subst h
      rw [split_lines_cons, if_pos hx]
      rfl
    · simp only [if_neg hx, Option.map_eq_some'] at h
      obtain ⟨k, hk, rfl⟩ := h
      rw [split_lines_cons, if_neg hx, ih k hk]
      rfl

/-- The first newline found by `memchr` splits the buffer into a line without newline,
the newline and the rest. -/
theorem memchr_split (X : List Int) (e : Nat) (h : memchr X 10 = some e) :
    X = X.take e ++ 10 :: X.drop (e + 1) ∧ (10 : Int) ∉ X.take e := by
  induction X generalizing e with
  | nil => simp [memchr] at h
  | cons x xs ih =>
    unfold memchr at h
    by_cases hx : x = 10
    · simp only [if_pos hx, Option.some.injEq] at h
      subst h
      simp [hx]
    · simp only [if_neg hx, Option.map_eq_some'] at h
      obtain ⟨k, hk, rfl⟩ := h
      obtain ⟨h1, h2⟩ := ih k hk
      refine ⟨?_, ?_⟩
      · simp only [List.take_succ_cons, List.drop_succ_cons, List.cons_append]
        rw [← h1]
      · simp only [List.take_succ_cons, List.mem_cons, not_or]
        exact ⟨fun e => hx e.symm, h2⟩

/-- One round of the loop, told with the line it consumes. -/
theorem text_handler_step_eq {σ : Type} (L M : Nat)
    (route : σ → Request → σ × code × Option (List Int) × Nat)
    (st : HandlerState σ) (e : Nat) (h : memchr st.cdata.buffer 10 = some e) :
    text_handler_step L M route st e =
      { cache := (route st.cache (line_request L M (st.cdata.buffer.take e))).1
        cdata := { buffer := st.cdata.buffer.drop (e + 1) }
        out := st.out ++ answer_text_client L
          (route st.cache (line_request L M (st.cdata.buffer.take e))).2.1
          (route st.cache (line_request L M (st.cdata.buffer.take e))).2.2.1
          (route st.cache (line_request L M (st.cdata.buffer.take e))).2.2.2
        reqs := st.reqs ++ [line_request L M (st.cdata.buffer.take e)] } := by
  have hlt := memchr_lt _ 10 e h
  have hlen : (st.cdata.buffer.take e).length = e := by
    rw [List.length_take]; omega
  have hparse : text_parse M (st.cdata.buffer.set e 0) =
      text_parse M (st.cdata.buffer.take e ++ [0]) := by
    apply text_parse_congr
    rw [List.set_eq_take_append_cons_drop, if_pos hlt]
    have : st.cdata.buffer.take e ++ 0 :: st.cdata.buffer.drop (e + 1) =
        (st.cdata.buffer.take e ++ [0]) ++ st.cdata.buffer.drop (e + 1) := by simp
    rw [this]
    exact cstr_append_of_mem _ _ (by simp)
  have hreq : (if e + 1 > L then ({ op := code.EINVALID, toks := [], lens := [] } : ParseResult)
      else text_parse M (st.cdata.buffer.set e 0)) =
      { op := (line_request L M (st.cdata.buffer.take e)).1
        toks := (line_request L M (st.cdata.buffer.take e)).2.1
        lens := (line_request L M (st.cdata.buffer.take e)).2.2 } := by
    unfold line_request
    rw [hlen, hparse]
    split <;> rfl
  unfold text_handler_step
  simp only [hreq]

/-- When the buffer holds a newline, `text_handler` is one round followed by
`text_handler` on what the round leaves. -/
theorem text_handler_unfold {σ : Type} (L M : Nat)
    (route : σ → Request → σ × code × Option (List Int) × Nat)
    (st : HandlerState σ) (e : Nat) (h : memchr st.cdata.buffer 10 = some e) :
    text_handler L M route st = text_handler L M route (text_handler_step L M route st e) := by
  have hlen := text_handler_step_length L M route st e h
  unfold text_handler
  obtain ⟨k, hk⟩ : ∃ k, st.cdata.buffer.length = k + 1 :=
    ⟨st.cdata.buffer.length - 1, by omega⟩
  simp only [ClientData.current_idx, hk, text_handler_loop, h]
  exact (text_handler_loop_fuel L M route _ _ _ (by omega) (Nat.le_refl _)).1

theorem serve_lines_length {σ : Type} (L M : Nat)
    (route : σ → Request → σ × code × Option (List Int) × Nat)
    (c : σ) (ls : List (List Int)) :
    (serve_lines L M route c ls).2.1.length = ls.length ∧
    (serve_lines L M route c ls).2.2.length = ls.length := by
  induction ls generalizing c with
  | nil => exact ⟨rfl, rfl⟩
  | cons l ls ih =>
    have h := ih (route c (line_request L M l)).1
    simp only [serve_lines, List.length_cons, h.1, h.2, and_self]

/-- The lines of a buffer: as many as it has newlines, none holding a newline; followed
by their newlines and by the remainder, which holds no newline, they make up the
buffer. -/
theorem split_lines_spec (X : List Int) :
    (split_lines X).1.length = X.count 10 ∧
    (∀ l ∈ (split_lines X).1, (10 : Int) ∉ l) ∧
    (10 : Int) ∉ (split_lines X).2 ∧
    X = ((split_lines X).1.map fun l => l ++ [10]).flatten ++ (split_lines X).2 := by
  induction X with
  | nil => simp [split_lines]
  | cons b bs ih =>
    obtain ⟨h1, h2, h3, h4⟩ := ih
    rw [split_lines_cons]
    by_cases hb : b = 10
    · rw [if_pos hb]
      subst hb
      refine ⟨by simp [h1], ?_, h3, ?_⟩
      · intro l hl
        rcases List.mem_cons.1 hl with rfl | hl
        · simp
        · exact h2 l hl
      · simp only [List.map_cons, List.flatten_cons, List.nil_append, List.singleton_append,
          List.cons_append]
        rw [← h4]
    · rw [if_neg hb]
      have hcount : (b :: bs).count 10 = bs.count 10 := by
        rw [List.count_cons]; simp [hb]
      cases hs : (split_lines bs).1 with
      | nil =>
        rw [hs] at h1 h4
        simp only [List.map_nil, List.flatten_nil, List.nil_append] at h4
        refine ⟨by simpa [hcount] using h1, by simp, ?_, ?_⟩
        · simp only [List.mem_cons, not_or]
          exact ⟨fun e => hb e.symm, h3⟩
        · simp only [List.map_nil, List.flatten_nil, List.nil_append]
          rw [← h4]
      | cons l ls =>
        rw [hs] at h1 h2 h4
        refine ⟨by simpa [hcount] using h1, ?_, h3, ?_⟩
        · intro l' hl'
          rcases List.mem_cons.1 hl' with rfl | hl'
          · simp only [List.mem_cons, not_or]
            exact ⟨fun e => hb e.symm, h2 l (List.mem_cons_self _ _)⟩
          · exact h2 l' (List.mem_cons_of_mem _ hl')
        · simp only [List.map_cons, List.flatten_cons, List.cons_append] at h4 ⊢
          rw [← h4]

/-- Running `text_handler` is serving the complete lines of the buffer in order and
keeping the bytes after the last newline. -/
theorem text_handler_eq_serve {σ : Type} (L M : Nat)
    (route : σ → Request → σ × code × Option (List Int) × Nat)
    (n : Nat) (st : HandlerState σ) (hn : st.cdata.buffer.length ≤ n) :
    text_handler L M route st = some
      { cache := (serve_lines L M route st.cache (split_lines st.cdata.buffer).1).1
        cdata := { buffer := (split_lines st.cdata.buffer).2 }
        out := st.out ++
          (serve_lines L M route st.cache (split_lines st.cdata.buffer).1).2.2.flatten
        reqs := st.reqs ++
          (serve_lines L M route st.cache (split_lines st.cdata.buffer).1).2.1 } := by
  induction n generalizing st with
  | zero =>
    have hnil : st.cdata.buffer = [] := List.length_eq_zero.1 (Nat.le_zero.1 hn)
    have hm : memchr st.cdata.buffer 10 = none := by rw [hnil]; rfl
    unfold text_handler
    rw [text_handler_loop_none L M route _ st hm, split_lines_of_none _ hm]
    cases st with
    | mk cache cdata out reqs => cases cdata; simp [serve_lines]
  | succ n ih =>
    cases hm : memchr st.cdata.buffer 10 with
    | none =>
      unfold text_handler
      rw [text_handler_loop_none L M route _ st hm, split_lines_of_none _ hm]
      cases st with
      | mk cache cdata out reqs => cases cdata; simp [serve_lines]
    | some e =>
      have hlen := text_handler_step_length L M route st e hm
      rw [text_handler_unfold L M route st e hm, ih _ (by omega),
        split_lines_of_some _ e hm, text_handler_step_eq L M route st e hm]
      simp only [serve_lines, List.flatten_cons, List.append_assoc, List.singleton_append]

theorem serve_lines_reqs {σ : Type} (L M : Nat)
    (route : σ → Request → σ × code × Option (List Int) × Nat)
    (c : σ) (ls : List (List Int)) :
    (serve_lines L M route c ls).2.1 = ls.map (line_request L M) := by
  induction ls generalizing c with
  | nil => rfl
  | cons l ls ih =>
    simp only [serve_lines, List.map_cons, ih]

/-! ## The text protocol: claims on `text_handler` -/

/-- C11. Over-long line: when the first complete line of the buffer, newline included, is
longer than `TEXT_LIMIT_SIZE`, `text_handler` passes the request `EINVALID` to the router
whatever the bytes of the line (the parser is not run on it), writes the response to it,
drops exactly the line and its newline from the buffer, and goes on as `text_handler`
does on a buffer that starts with the line that follows; and it terminates. -/
theorem text_handler_long_line {σ : Type} (TEXT_LIMIT_SIZE TEXT_MAX_TOKS : Nat)
    (make_cache_request : σ → Request → σ × code × Option (List Int) × Nat)
    (st : HandlerState σ) (ebyte : Nat)
    (hm : memchr st.cdata.buffer 10 = some ebyte) (hl : TEXT_LIMIT_SIZE < ebyte + 1) :
    text_handler TEXT_LIMIT_SIZE TEXT_MAX_TOKS make_cache_request st =
      text_handler TEXT_LIMIT_SIZE TEXT_MAX_TOKS make_cache_request
        { cache := (make_cache_request st.cache (code.EINVALID, [], [])).1
          cdata := { buffer := st.cdata.buffer.drop (ebyte + 1) }
          out := st.out ++ answer_text_client TEXT_LIMIT_SIZE
            (make_cache_request st.cache (code.EINVALID, [], [])).2.1
            (make_cache_request st.cache (code.EINVALID, [], [])).2.2.1
            (make_cache_request st.cache (code.EINVALID, [], [])).2.2.2
          reqs := st.reqs ++ [(code.EINVALID, [], [])] } ∧
    (text_handler TEXT_LIMIT_SIZE TEXT_MAX_TOKS make_cache_request st).isSome = true := by
  have hstep : text_handler_step TEXT_LIMIT_SIZE TEXT_MAX_TOKS make_cache_request st ebyte =
      { cache := (make_cache_request st.cache (code.EINVALID, [], [])).1
        cdata := { buffer := st.cdata.buffer.drop (ebyte + 1) }
        out := st.out ++ answer_text_client TEXT_LIMIT_SIZE
          (make_cache_request st.cache (code.EINVALID, [], [])).2.1
          (make_cache_request st.cache (code.EINVALID, [], [])).2.2.1
          (make_cache_request st.cache (code.EINVALID, [], [])).2.2.2
        reqs := st.reqs ++ [(code.EINVALID, [], [])] } := by
    unfold text_handler_step
    simp only [gt_iff_lt, if_pos hl]
  refine ⟨?_, ?_⟩
  · rw [text_handler_unfold _ _ _ st ebyte hm, hstep]
  · rw [text_handler_eq_serve _ _ _ _ st (Nat.le_refl _)]
    rfl

theorem text_handler_long_line_witness :
    (memchr sample_handler_state.cdata.buffer 10 = some 8 ∧ 8 < 8 + 1) ∧
    (text_handler 8 4 echo_router sample_handler_state =
      text_handler 8 4 echo_router
        { cache := (echo_router sample_handler_state.cache (code.EINVALID, [], [])).1
          cdata := { buffer := sample_handler_state.cdata.buffer.drop (8 + 1) }
          out := sample_handler_state.out ++ answer_text_client 8
            (echo_router sample_handler_state.cache (code.EINVALID, [], [])).2.1
            (echo_router sample_handler_state.cache (code.EINVALID, [], [])).2.2.1
            (echo_router sample_handler_state.cache (code.EINVALID, [], [])).2.2.2
          reqs := sample_handler_state.reqs ++ [(code.EINVALID, [], [])] } ∧
    (text_handler 8 4 echo_router sample_handler_state).isSome = true) :=
  ⟨⟨by decide, by decide⟩,
    text_handler_long_line 8 4 echo_router sample_handler_state 8 (by decide) (by decide)⟩

/-- C14. One response per command, exact consumption: on a buffer holding `n` newline
bytes `text_handler` terminates; it passes `n` requests to the router, the requests of
the `n` complete lines in order, and writes `n` responses, one for each in order; on
return the buffer holds exactly the bytes that followed the last newline, which hold no
newline, and `current_idx` is their number. -/
theorem text_handler_one_response_per_line {σ : Type} (TEXT_LIMIT_SIZE TEXT_MAX_TOKS : Nat)
    (make_cache_request : σ → Request → σ × code × Option (List Int) × Nat)
    (st : HandlerState σ) :
    ∃ s' : HandlerState σ, ∃ lines : List (List Int), ∃ responses : List (List Int),
      text_handler TEXT_LIMIT_SIZE TEXT_MAX_TOKS make_cache_request st = some s' ∧
      lines.length = st.cdata.buffer.count 10 ∧
      (∀ l ∈ lines, (10 : Int) ∉ l) ∧
      st.cdata.buffer = (lines.map fun l => l ++ [10]).flatten ++ s'.cdata.buffer ∧
      (10 : Int) ∉ s'.cdata.buffer ∧
      s'.cdata.current_idx = s'.cdata.buffer.length ∧
      s'.reqs = st.reqs ++ lines.map (line_request TEXT_LIMIT_SIZE TEXT_MAX_TOKS) ∧
      responses.length = st.cdata.buffer.count 10 ∧
      s'.out = st.out ++ responses.flatten ∧
      (s'.cache, lines.map (line_request TEXT_LIMIT_SIZE TEXT_MAX_TOKS), responses) =
        serve_lines TEXT_LIMIT_SIZE TEXT_MAX_TOKS make_cache_request st.cache lines := by
  obtain ⟨h1, h2, h3, h4⟩ := split_lines_spec st.cdata.buffer
  have hl := serve_lines_length TEXT_LIMIT_SIZE TEXT_MAX_TOKS make_cache_request st.cache
    (split_lines st.cdata.buffer).1
  have hr := serve_lines_reqs TEXT_LIMIT_SIZE TEXT_MAX_TOKS make_cache_request st.cache
    (split_lines st.cdata.buffer).1
  refine ⟨_, (split_lines st.cdata.buffer).1,
    (serve_lines TEXT_LIMIT_SIZE TEXT_MAX_TOKS make_cache_request st.cache
      (split_lines st.cdata.buffer).1).2.2,
    text_handler_eq_serve _ _ _ _ st (Nat.le_refl _), h1, h2, h4, h3, rfl, ?_, ?_, rfl, ?_⟩
  · simp only [hr]
  · rw [hl.2, h1]
  · rw [← hr]

end MemCached
